import Mathlib

/-!
Verification of the go-log repository's core against its specification.

The Go source is shallowly embedded: byte strings become `List Nat` (one
natural per byte), the size-based rotating file writer becomes a pure state
machine over an explicit model of the slice of the filesystem it touches,
and the JSON encoder becomes pure functions on byte lists.
-/

set_option maxHeartbeats 1000000

namespace GoLog

/-- Byte strings are modelled as lists of naturals (one per byte). -/
abbrev Bytes := List Nat

/-- The bytes of a Lean string literal (every character in the strings we use
is ASCII, so `Char.toNat` is the byte value). Used for error messages. -/
def strBytes (s : String) : Bytes := s.data.map Char.toNat

/-! ## Size-based rotating file writer (src/writer/level_writer.go) -/

/-- Model of the Go `ranges` helper (src/writer/level_writer.go), ascending
case (`step > 0`): collect `start, start+step, ...` while `start < stop`. -/
def rangesUp (start stop step : Int) (h : 0 < step) : List Int :=
  if start < stop then start :: rangesUp (start + step) stop step h else []
termination_by (stop - start).toNat
decreasing_by
  have h2 : start < stop := by assumption
  omega

/-- Model of the Go `ranges` helper, descending case (`step < 0`): collect
`start, start+step, ...` while `start > stop`. -/
def rangesDown (start stop step : Int) (h : step < 0) : List Int :=
  if start > stop then start :: rangesDown (start + step) stop step h else []
termination_by (start - stop).toNat
decreasing_by
  have h2 : start > stop := by assumption
  omega

/-- Model of `ranges` (src/writer/level_writer.go lines 288-304).  A zero step
panics in the source, modelled by `none`. -/
def ranges (start stop step : Int) : Option (List Int) :=
  if h : 0 < step then some (rangesUp start stop step h)
  else if h2 : step < 0 then some (rangesDown start stop step h2)
  else none

/-- The descending index list `[k, k-1, ..., 1]` used to specify what
`ranges (n-1) 0 (-1)` produces. -/
def downList : Nat → List Int
  | 0 => []
  | k + 1 => ((k + 1 : Nat) : Int) :: downList k

/-- Model of `SizedRotatingFile` (src/writer/level_writer.go) together with
the slice of the filesystem it manipulates.  `base` models the content of the
active file at the configured path and `bak i` the content of backup file
`<path>.i`; `none` means the file does not exist.  `fileOpen` models
`f.file != nil`, `nbytes`, `closed`, `maxSize` and `backupCount` model the
fields of the same names (the `closed` int32 flag becomes a Bool, with the
compare-and-swap in `Close` modelled sequentially).  `filename` and
`filemode` are not modelled (files are identified positionally, permissions
are irrelevant to the claims). -/
structure SizedRotatingFile where
  base : Option Bytes
  bak : Int → Option Bytes
  fileOpen : Bool
  nbytes : Nat
  closed : Bool
  maxSize : Int
  backupCount : Int

/-- Model of `NewSizedRotatingFile` (lines 116-142): `filenum <= 0` forces
`filesize = math.MaxInt32`; otherwise a non-positive `filesize` defaults to
`100 * 1024 * 1024`.  The filesystem starts with no base file and no backup
files (the "nonexistent base file" initial condition of the claims). -/
def NewSizedRotatingFile (filesize filenum : Int) : SizedRotatingFile :=
  { base := none
    bak := fun _ => none
    fileOpen := false
    nbytes := 0
    closed := false
    maxSize :=
      if filenum ≤ 0 then (2147483647 : Int)
      else if filesize ≤ 0 then 100 * 1024 * 1024 else filesize
    backupCount := filenum }

/-- Model of the private `f.close()` (lines 214-220): close the handle and
nil it out; the filesystem is untouched. -/
def SizedRotatingFile.closeHandle (s : SizedRotatingFile) : SizedRotatingFile :=
  { s with fileOpen := false }

/-- Model of `f.open()` (lines 197-212): `os.OpenFile` with
`O_CREATE|O_APPEND|O_WRONLY` creates the file if absent, then `Stat` seeds
`nbytes` from the current size.  No I/O errors are modelled. -/
def SizedRotatingFile.openF (s : SizedRotatingFile) : SizedRotatingFile :=
  let c := s.base.getD []
  { s with base := some c, fileOpen := true, nbytes := c.length }

/-- One iteration of the rename loop in `doRollover` (lines 237-249) for
backup index `i`: if `<path>.i` exists, delete any existing `<path>.(i+1)`
and rename `<path>.i` to `<path>.(i+1)` (the rename removes the source). -/
def rotateStep (s : SizedRotatingFile) (i : Int) : SizedRotatingFile :=
  match s.bak i with
  | some _ =>
      { s with bak := fun j => if j = i + 1 then s.bak i else if j = i then none else s.bak j }
  | none => s

/-- Model of `doRollover` (lines 222-268).  Only reached with a positive
backup count; it closes the handle, and if the base file exists and is
nonempty it shifts the backups `i -> i+1` for `i` from `backupCount-1` down
to `1`, renames the base file to `<path>.1` (deleting any previous
`<path>.1`), and reopens a fresh base file.  If the base file is missing or
empty it returns early without reopening (leaving the handle nil, exactly as
the source does). -/
def SizedRotatingFile.doRollover (s : SizedRotatingFile) : SizedRotatingFile :=
  if 0 < s.backupCount then
    let s1 := s.closeHandle
    match s1.base with
    | none => s1
    | some c =>
      if c.length = 0 then s1
      else
        let s2 := ((ranges (s.backupCount - 1) 0 (-1)).getD []).foldl rotateStep s1
        let s3 : SizedRotatingFile :=
          { s2 with bak := fun j => if j = 1 then s2.base else s2.bak j, base := none }
        s3.openF
  else s

/-- Model of `Write` (lines 171-195): reject if closed; lazily open; roll
over before a write that would cross the size threshold; then append the
whole chunk.  When `doRollover` returned without reopening (missing/empty
base file), the subsequent `f.file.Write` on the nil handle fails with
`os.ErrInvalid` and writes nothing, exactly as in the source.  Returns the
new state, the byte count written, and the error (an error message, or
`none` for success). -/
def SizedRotatingFile.Write (s : SizedRotatingFile) (data : Bytes) :
    SizedRotatingFile × Nat × Option Bytes :=
  if s.closed then (s, 0, some (strBytes "the file has been closed"))
  else
    let s1 := if s.fileOpen then s else s.openF
    let s2 := if (s1.nbytes : Int) + data.length > s1.maxSize then s1.doRollover else s1
    if s2.fileOpen then
      ({ s2 with base := some (s2.base.getD [] ++ data), nbytes := s2.nbytes + data.length },
        data.length, none)
    else (s2, 0, some (strBytes "invalid argument"))

/-- Model of `Close` (lines 155-161): the compare-and-swap on the closed
flag succeeds only the first time, in which case the handle is closed; a
second `Close` leaves the state untouched and returns a nil error. -/
def SizedRotatingFile.Close (s : SizedRotatingFile) : SizedRotatingFile × Option Bytes :=
  if s.closed then (s, none)
  else ({ s.closeHandle with closed := true }, none)

/-- Apply a sequence of `Write` calls, keeping only the state. -/
def applyWrites (s : SizedRotatingFile) (ws : List Bytes) : SizedRotatingFile :=
  ws.foldl (fun t d => (t.Write d).1) s

/-- Ghost replay of a write sequence that additionally records the size of
the write that triggered the most recent rollover (the rollover condition is
evaluated exactly as in `Write`, after the lazy open). -/
def stepG (p : SizedRotatingFile × Option Nat) (d : Bytes) : SizedRotatingFile × Option Nat :=
  if p.1.closed then p
  else
    let s1 := if p.1.fileOpen then p.1 else p.1.openF
    let t' := if (s1.nbytes : Int) + d.length > s1.maxSize then some d.length else p.2
    ((p.1.Write d).1, t')

/-- The size of the write that triggered the most recent rollover in the
write sequence `ws` run from `s0`, if any. -/
def lastTriggerSize (s0 : SizedRotatingFile) (ws : List Bytes) : Option Nat :=
  (ws.foldl stepG (s0, none)).2

/-- A tiny concrete open writer state, used only by claim witnesses. -/
def sampleOpenState : SizedRotatingFile where
  base := none
  bak := fun _ => none
  fileOpen := true
  nbytes := 0
  closed := false
  maxSize := 5
  backupCount := 2

/-- A tiny concrete writer state with a zero backup count, used only by
claim witnesses. -/
def sampleZeroState : SizedRotatingFile where
  base := none
  bak := fun _ => none
  fileOpen := false
  nbytes := 0
  closed := false
  maxSize := 9
  backupCount := 0

/-- Internal consistency of a reachable writer state: an open handle points
at an existing base file whose size is exactly `nbytes`; whenever the handle
is not open (initially, or after a rollover aborted on a missing/empty base
file) the base file is absent or empty. -/
def SyncInv (s : SizedRotatingFile) : Prop :=
  (s.fileOpen = true → ∃ c, s.base = some c ∧ s.nbytes = c.length) ∧
  (s.fileOpen = false → s.base.getD [] = [])

/-- Backup files only ever exist at indices `1 .. N`. -/
def BakInv (N : Int) (s : SizedRotatingFile) : Prop :=
  ∀ j, s.bak j ≠ none → 1 ≤ j ∧ j ≤ N

/-- The active file's byte count is within the limit `M` unless it equals
the size of the write that triggered the most recent rollover. -/
def BoundInv (M : Int) (s : SizedRotatingFile) (t : Option Nat) : Prop :=
  (s.nbytes : Int) ≤ M ∨ t = some s.nbytes

/-! ## JSON string escaper (src/encoder/json.go) -/

/-- The `noEscapeTable` built by the package `init` (src/encoder/json.go
lines 28-34): a byte needs no escaping iff it is in `0x20..0x7e` and is
neither the double quote nor the backslash. -/
def noEscape (b : Nat) : Bool :=
  decide (0x20 ≤ b ∧ b ≤ 0x7e ∧ b ≠ 0x22 ∧ b ≠ 0x5c)

/-- Go's `utf8.RuneError` (the Unicode replacement character). -/
def runeError : Nat := 0xFFFD

/-- First-byte classification of Go's `utf8.DecodeRuneInString` (the
`first` and `acceptRanges` tables of package `unicode/utf8`): `none` for a
byte that cannot start a valid multi-byte encoding, otherwise the sequence
size and the accepted range for the second byte. -/
def utf8First (b : Nat) : Option (Nat × Nat × Nat) :=
  if 0xC2 ≤ b ∧ b ≤ 0xDF then some (2, 0x80, 0xBF)
  else if b = 0xE0 then some (3, 0xA0, 0xBF)
  else if 0xE1 ≤ b ∧ b ≤ 0xEC then some (3, 0x80, 0xBF)
  else if b = 0xED then some (3, 0x80, 0x9F)
  else if 0xEE ≤ b ∧ b ≤ 0xEF then some (3, 0x80, 0xBF)
  else if b = 0xF0 then some (4, 0x90, 0xBF)
  else if 0xF1 ≤ b ∧ b ≤ 0xF3 then some (4, 0x80, 0xBF)
  else if b = 0xF4 then some (4, 0x80, 0x8F)
  else none

/-- Model of Go's `utf8.DecodeRuneInString` on a byte list: the decoded
rune and the number of bytes consumed; `(RuneError, 1)` for an invalid
encoding and `(RuneError, 0)` for the empty string.  Go's bit masking
`b & 0x1f`/`b & 0x3f`/... is written `b % 0x20`/`b % 0x40`/... (identical
on naturals). -/
def decodeRune : Bytes → Nat × Nat
  | [] => (runeError, 0)
  | b0 :: rest =>
    if b0 < 0x80 then (b0, 1)
    else
      match utf8First b0 with
      | none => (runeError, 1)
      | some (sz, lo, hi) =>
        match rest with
        | [] => (runeError, 1)
        | b1 :: rest1 =>
          if b1 < lo ∨ hi < b1 then (runeError, 1)
          else if sz = 2 then ((b0 % 0x20) * 0x40 + b1 % 0x40, 2)
          else
            match rest1 with
            | [] => (runeError, 1)
            | b2 :: rest2 =>
              if b2 < 0x80 ∨ 0xBF < b2 then (runeError, 1)
              else if sz = 3 then
                ((b0 % 0x10) * 0x1000 + (b1 % 0x40) * 0x40 + b2 % 0x40, 3)
              else
                match rest2 with
                | [] => (runeError, 1)
                | b3 :: _ =>
                  if b3 < 0x80 ∨ 0xBF < b3 then (runeError, 1)
                  else ((b0 % 8) * 0x40000 + (b1 % 0x40) * 0x1000 +
                    (b2 % 0x40) * 0x40 + b3 % 0x40, 4)

/-- ASCII code of the `n`-th character of the `hex` table
`"0123456789abcdef"` (line 26). -/
def hexDigit (n : Nat) : Nat := if n < 10 then 48 + n else 87 + n

/-- The bytes appended for one unsafe ASCII byte by the `switch` of
`appendStringComplex` (lines 434-449); `b>>4` and `b&0xF` are written
`b / 16` and `b % 16`. -/
def escByte (b : Nat) : Bytes :=
  if b = 0x22 ∨ b = 0x5c then [0x5c, b]
  else if b = 8 then [0x5c, 98]
  else if b = 12 then [0x5c, 102]
  else if b = 10 then [0x5c, 110]
  else if b = 13 then [0x5c, 114]
  else if b = 9 then [0x5c, 116]
  else [0x5c, 117, 48, 48, hexDigit (b / 16), hexDigit (b % 16)]

/-- The bytes of the literal `�` appended for an invalid UTF-8 byte
(line 412). -/
def ufffdLit : Bytes := [0x5c, 117, 102, 102, 102, 100]

/-- The Go slice `s[a:b]`. -/
def sliceB (s : Bytes) (a b : Nat) : Bytes := (s.drop a).take (b - a)

/-- Model of `appendStringComplex` (lines 397-458): scan from index `i`,
flushing the pending safe chunk `s[start:i]` whenever an escape is emitted,
exactly as the source loop does.  In the valid-rune branch the source does
`i += size` with `size ≥ 1`; this is written `i + (size - 1) + 1` so that
the recursion is visibly decreasing (the two agree since the decoder only
returns size 0 on empty input). -/
def appendStringComplexAux (s : Bytes) (i start : Nat) (dst : Bytes) : Bytes :=
  if h : i < s.length then
    let b := s.get ⟨i, h⟩
    if 0x80 ≤ b then
      let r := decodeRune (s.drop i)
      if r.1 = runeError ∧ r.2 = 1 then
        appendStringComplexAux s (i + 1) (i + 1) (dst ++ sliceB s start i ++ ufffdLit)
      else
        appendStringComplexAux s (i + (r.2 - 1) + 1) start dst
    else if noEscape b then
      appendStringComplexAux s (i + 1) start dst
    else
      appendStringComplexAux s (i + 1) (i + 1) (dst ++ sliceB s start i ++ escByte b)
  else dst ++ sliceB s start s.length
termination_by s.length - i
decreasing_by all_goals omega

/-- Index of the first byte that needs escaping: the scanning loop of
`AppendJSONString` (lines 380-391). -/
def firstUnsafe : Bytes → Option Nat
  | [] => none
  | b :: t => if noEscape b then (firstUnsafe t).map (· + 1) else some 0

/-- Model of `AppendJSONString` (lines 376-395): opening quote, then either
the complex escape loop from the first unsafe byte or the raw bytes, then
the closing quote. -/
def AppendJSONString (dst : Bytes) (s : Bytes) : Bytes :=
  match firstUnsafe s with
  | some i => appendStringComplexAux s i 0 (dst ++ [0x22]) ++ [0x22]
  | none => ((dst ++ [0x22]) ++ s) ++ [0x22]

/-- Straight-line specification of the escaped body placed between the two
quotes (proved equal to the output of the scanning loop). -/
def esc : Bytes → Bytes
  | [] => []
  | b :: t =>
    if 0x80 ≤ b then
      let r := decodeRune (b :: t)
      if r.1 = runeError ∧ r.2 = 1 then ufffdLit ++ esc t
      else (b :: t.take (r.2 - 1)) ++ esc (t.drop (r.2 - 1))
    else if noEscape b then b :: esc t
    else escByte b ++ esc t
termination_by l => l.length
decreasing_by all_goals (simp [List.length_drop]; try omega)

/-- The input string with every byte at which Go's UTF-8 decoder reports an
error replaced by the UTF-8 encoding `EF BF BD` of the replacement
character; valid sequences (and plain ASCII bytes) are kept verbatim. -/
def replaceInvalid : Bytes → Bytes
  | [] => []
  | b :: t =>
    if b < 0x80 then b :: replaceInvalid t
    else
      let r := decodeRune (b :: t)
      if r.1 = runeError ∧ r.2 = 1 then 0xEF :: 0xBF :: 0xBD :: replaceInvalid t
      else (b :: t.take (r.2 - 1)) ++ replaceInvalid (t.drop (r.2 - 1))
termination_by l => l.length
decreasing_by all_goals (simp [List.length_drop]; try omega)

/-- Value of an ASCII hex digit. -/
def parseHexDigit (b : Nat) : Option Nat :=
  if 48 ≤ b ∧ b ≤ 57 then some (b - 48)
  else if 97 ≤ b ∧ b ≤ 102 then some (b - 87)
  else if 65 ≤ b ∧ b ≤ 70 then some (b - 55)
  else none

/-- Standard UTF-8 encoding of a code point. -/
def utf8Encode (r : Nat) : Bytes :=
  if r < 0x80 then [r]
  else if r < 0x800 then [0xC0 + r / 0x40, 0x80 + r % 0x40]
  else if r < 0x10000 then
    [0xE0 + r / 0x1000, 0x80 + (r / 0x40) % 0x40, 0x80 + r % 0x40]
  else
    [0xF0 + r / 0x40000, 0x80 + (r / 0x1000) % 0x40, 0x80 + (r / 0x40) % 0x40,
      0x80 + r % 0x40]

/-- Parser for the body of a JSON string literal (after the opening quote):
returns the decoded bytes (UTF-8) and the input remaining after the closing
quote; `none` if the bytes are not a syntactically valid JSON string body.
A `\uXXXX` escape decodes to the UTF-8 encoding of its code point (surrogate
pairs are not combined; the encoder under verification never emits them). -/
def parseStrBody : Bytes → Option (Bytes × Bytes)
  | [] => none
  | b :: t =>
    if b = 0x22 then some ([], t)
    else if b = 0x5c then
      match t with
      | [] => none
      | e :: t2 =>
        if e = 0x22 ∨ e = 0x5c ∨ e = 0x2f then
          (parseStrBody t2).map (fun p => (e :: p.1, p.2))
        else if e = 98 then (parseStrBody t2).map (fun p => (8 :: p.1, p.2))
        else if e = 102 then (parseStrBody t2).map (fun p => (12 :: p.1, p.2))
        else if e = 110 then (parseStrBody t2).map (fun p => (10 :: p.1, p.2))
        else if e = 114 then (parseStrBody t2).map (fun p => (13 :: p.1, p.2))
        else if e = 116 then (parseStrBody t2).map (fun p => (9 :: p.1, p.2))
        else if e = 117 then
          match t2 with
          | h1 :: h2 :: h3 :: h4 :: t3 =>
            match parseHexDigit h1, parseHexDigit h2, parseHexDigit h3, parseHexDigit h4 with
            | some d1, some d2, some d3, some d4 =>
              (parseStrBody t3).map
                (fun p => (utf8Encode (((d1 * 16 + d2) * 16 + d3) * 16 + d4) ++ p.1, p.2))
            | _, _, _, _ => none
          | _ => none
        else none
    else if b < 0x20 then none
    else (parseStrBody t).map (fun p => (b :: p.1, p.2))

/-- Parser for a complete JSON string literal. -/
def parseStringLit : Bytes → Option (Bytes × Bytes)
  | [] => none
  | b :: t => if b = 0x22 then parseStrBody t else none


/-! ## JSON value encoder (src/encoder/json.go lines 195-374) -/

/-- Decimal digits of a natural, as ASCII bytes (the output of Go's
`strconv.AppendUint(.., 10)`). -/
def natDecimal (n : Nat) : Bytes :=
  if n < 10 then [48 + n] else natDecimal (n / 10) ++ [48 + n % 10]
termination_by n
decreasing_by omega

/-- Output of `strconv.AppendInt(.., 10)`. -/
def intDecimal (n : Int) : Bytes :=
  if n < 0 then 45 :: natDecimal (-n).toNat else natDecimal n.toNat

/-- Model of the Go interface value handed to `JSONEncoder.appendAny`
(src/encoder/json.go lines 195-374).  Each constructor models the dynamic
types of one `case` of the type switch; Go types that render identically
are collapsed (all signed integer widths onto `vInt` via
`strconv.AppendInt`, all unsigned onto `vUint`).  `vErr`/`vStringer` carry
whether the underlying pointer is nil together with the result of calling
`Error()`/`String()` on it — `none` models a method that panics on its nil
receiver.  `vMarshaler` carries the result of `MarshalJSON`:
`Except.error` an error message, `Except.ok` the raw marshalled bytes,
which the source appends unvalidated (lines 365-371) — so a successful
marshaler can produce an ill-formed record, refuting a blanket validity
guarantee (see the C5 counterexample).  Floats (whose `strconv.AppendFloat`
rendering is `NaN`/`+Inf`/`-Inf` for non-finite values, likewise breaking
JSON validity), maps, `time.Time` and the `EncodeJSON`/`WriteJSON`
capability interfaces are outside the model. -/
inductive GoValue where
  | vNull
  | vBool (b : Bool)
  | vInt (n : Int)
  | vUint (n : Nat)
  | vStr (s : Bytes)
  | vDur (s : Bytes)
  | vErr (isNil : Bool) (msg : Option Bytes)
  | vStringer (isNil : Bool) (msg : Option Bytes)
  | vMarshaler (res : Except Bytes Bytes)
  | vStrList (l : List Bytes)

/-- The `case []string` loop (lines 285-293): bracketed, comma-joined
escaped strings, first element without a leading comma. -/
def appendStrList (buf : Bytes) : List Bytes → Bytes
  | [] => (buf ++ [0x5b]) ++ [0x5d]
  | x :: xs =>
      (xs.foldl (fun acc y => AppendJSONString (acc ++ [0x2c]) y)
        (AppendJSONString (buf ++ [0x5b]) x)) ++ [0x5d]

/-- Model of `JSONEncoder.appendAny`.  The type switch (lines 196-374) is
dispatched on the `GoValue` constructor; Go's `case nil` matches only the
untyped nil interface (`vNull`), never an interface with a non-nil dynamic
type and nil underlying value, so `vErr`/`vStringer` reach the
`error`/`fmt.Stringer` cases regardless of `isNil` and invoke the method;
`none` (a panicking method) makes the whole encode crash, modelled by
propagating `none`. -/
def appendAny (buf : Bytes) : GoValue → Option Bytes
  | .vDur s => some (buf ++ 0x22 :: (s ++ [0x22]))
  | .vNull => some (buf ++ strBytes "null")
  | .vBool b => some (buf ++ (if b then strBytes "true" else strBytes "false"))
  | .vInt n => some (buf ++ intDecimal n)
  | .vUint n => some (buf ++ natDecimal n)
  | .vStr s => some (AppendJSONString buf s)
  | .vErr _ msg =>
      match msg with
      | some m => some (AppendJSONString buf m)
      | none => none
  | .vStringer _ msg =>
      match msg with
      | some m => some (AppendJSONString buf m)
      | none => none
  | .vMarshaler res =>
      match res with
      | .error e => some (AppendJSONString buf (strBytes "JSONEncoderError: " ++ e))
      | .ok data => some (buf ++ data)
  | .vStrList l => some (appendStrList buf l)

/-- Model of the `JSONEncoder` configuration (src/encoder/json.go lines
59-93): the four key names (empty = disabled), whether a level formatter is
installed, and the trailing-newline switch.  The time formatter is the
default `FormatTime` (quote, `t.AppendFormat(.., RFC3339Nano)`, quote); the
formatted time bytes and the formatted level string are inputs of `Start`
below. -/
structure JSONEncoder where
  Newline : Bool
  TimeKey : Bytes
  LevelKey : Bytes
  hasLevelFormat : Bool
  LoggerKey : Bytes
  MsgKey : Bytes

/-- Model of `JSONEncoder.Start` (lines 110-140): opening brace, then the
optional time, level and logger-name members, each followed by a comma.
`timeBytes` stands for the output of `t.AppendFormat(buf, RFC3339Nano)` on
the current time and `levelStr` for `enc.LevelFormatFunc(level)`. -/
def JSONEncoder.Start (enc : JSONEncoder) (buf : Bytes) (name : Bytes)
    (timeBytes levelStr : Bytes) : Bytes :=
  let b1 := buf ++ [0x7b]
  let b2 :=
    if 0 < enc.TimeKey.length then
      ((AppendJSONString b1 enc.TimeKey ++ [0x3a]) ++ (0x22 :: (timeBytes ++ [0x22]))) ++ [0x2c]
    else b1
  let b3 :=
    if 0 < enc.LevelKey.length ∧ enc.hasLevelFormat then
      (AppendJSONString (AppendJSONString b2 enc.LevelKey ++ [0x3a]) levelStr) ++ [0x2c]
    else b2
  if 0 < enc.LoggerKey.length ∧ 0 < name.length then
    (AppendJSONString (AppendJSONString b3 enc.LoggerKey ++ [0x3a]) name) ++ [0x2c]
  else b3

/-- Model of `JSONEncoder.Encode` (lines 151-157): escaped key, colon,
value, trailing comma; a crash in `appendAny` propagates. -/
def JSONEncoder.Encode (enc : JSONEncoder) (buf key : Bytes) (value : GoValue) : Option Bytes :=
  (appendAny (AppendJSONString buf key ++ [0x3a]) value).map (· ++ [0x2c])

/-- Model of `JSONEncoder.End` (lines 160-175): message member (no leading
comma), closing brace, optional newline. -/
def JSONEncoder.End (enc : JSONEncoder) (buf msg : Bytes) : Bytes :=
  let b := AppendJSONString (AppendJSONString buf enc.MsgKey ++ [0x3a]) msg ++ [0x7d]
  if enc.Newline then b ++ [0x0a] else b

/-- `Encode` folded over a field list, as the emission pipeline does: one
call per context field then per call-site field, in order. -/
def encodeFields (enc : JSONEncoder) (buf : Bytes) : List (Bytes × GoValue) → Option Bytes
  | [] => some buf
  | (k, v) :: fs =>
      match enc.Encode buf k v with
      | some b => encodeFields enc b fs
      | none => none

/-- A full record: `Start`, then one `Encode` per field, then `End`. -/
def encodeRecord (enc : JSONEncoder) (name timeBytes levelStr : Bytes)
    (fields : List (Bytes × GoValue)) (msg : Bytes) : Option Bytes :=
  (encodeFields enc (enc.Start [] name timeBytes levelStr) fields).map
    (fun b => enc.End b msg)

/-- The values whose encodings are guaranteed well-formed JSON: everything
except a crashing nil-receiver method, a `MarshalJSON` success (whose raw
bytes are user-controlled), and a duration whose rendered string would
need escaping (Go duration strings are always safe ASCII). -/
def wellBehaved : GoValue → Prop
  | .vErr _ none => False
  | .vStringer _ none => False
  | .vMarshaler (.ok _) => False
  | .vDur s => ∀ b ∈ s, noEscape b = true
  | _ => True

/-! ## A JSON grammar (subset) used to state validity of encoder output -/

/-- JSON values, as parsed back from bytes. -/
inductive Json where
  | jNull
  | jBool (b : Bool)
  | jNum (n : Int)
  | jStr (s : Bytes)
  | jArr (l : List Json)
  | jObj (members : List (Bytes × Json))
deriving Repr

/-- Consume a maximal run of decimal digits, accumulating their value. -/
def parseDigits : Bytes → Nat → Nat × Bytes
  | [], acc => (acc, [])
  | b :: t, acc =>
      if 48 ≤ b ∧ b ≤ 57 then parseDigits t (acc * 10 + (b - 48)) else (acc, b :: t)

/-- The magnitude of a JSON number per the strict grammar `0 | [1-9][0-9]*`
(no leading zeros). -/
def parseNumMag : Bytes → Option (Nat × Bytes)
  | [] => none
  | b :: t =>
      if b = 48 then some (0, t)
      else if 49 ≤ b ∧ b ≤ 57 then some (parseDigits (b :: t) 0)
      else none

/-- A JSON integer: optional minus sign, then a magnitude.  (Fractions and
exponents are not needed: the encoder under verification emits integers.) -/
def parseNumber : Bytes → Option (Int × Bytes)
  | 45 :: t => (parseNumMag t).map (fun p => (-(p.1 : Int), p.2))
  | l => (parseNumMag l).map (fun p => ((p.1 : Int), p.2))

/-- Elements of a nonempty array of JSON strings: string literal, then
either a comma and more elements or the closing bracket.  `fuel` bounds the
number of elements (a list cannot have more elements than the input has
bytes). -/
def parseStrArrayLoop : Nat → Bytes → Option (List Bytes × Bytes)
  | 0, _ => none
  | fuel + 1, l =>
      match parseStringLit l with
      | none => none
      | some (s, r) =>
          match r with
          | 0x2c :: r2 => (parseStrArrayLoop fuel r2).map (fun p => (s :: p.1, p.2))
          | 0x5d :: r2 => some ([s], r2)
          | _ => none

/-- A JSON value of the fragment the encoder emits: null, booleans,
integers, strings, and arrays of strings. -/
def parseValue (fuel : Nat) (l : Bytes) : Option (Json × Bytes) :=
  match l with
  | [] => none
  | b :: t =>
      if b = 0x22 then (parseStrBody t).map (fun p => (Json.jStr p.1, p.2))
      else if b = 0x5b then
        match t with
        | 0x5d :: t2 => some (Json.jArr [], t2)
        | _ => (parseStrArrayLoop fuel t).map (fun p => (Json.jArr (p.1.map Json.jStr), p.2))
      else if b = 110 then
        match t with
        | 117 :: 108 :: 108 :: t2 => some (Json.jNull, t2)
        | _ => none
      else if b = 116 then
        match t with
        | 114 :: 117 :: 101 :: t2 => some (Json.jBool true, t2)
        | _ => none
      else if b = 102 then
        match t with
        | 97 :: 108 :: 115 :: 101 :: t2 => some (Json.jBool false, t2)
        | _ => none
      else (parseNumber (b :: t)).map (fun p => (Json.jNum p.1, p.2))

/-- Members of a nonempty JSON object: a string key, a colon, a value, then
either a comma and more members or the closing brace. -/
def parseMembers : Nat → Bytes → Option (List (Bytes × Json) × Bytes)
  | 0, _ => none
  | fuel + 1, l =>
      match parseStringLit l with
      | none => none
      | some (k, r) =>
          match r with
          | 0x3a :: r2 =>
              match parseValue fuel r2 with
              | none => none
              | some (v, r3) =>
                  match r3 with
                  | 0x2c :: r4 => (parseMembers fuel r4).map (fun p => ((k, v) :: p.1, p.2))
                  | 0x7d :: r4 => some ([(k, v)], r4)
                  | _ => none
          | _ => none

/-- A complete JSON object: brace-delimited member list. -/
def parseRecord (fuel : Nat) : Bytes → Option (List (Bytes × Json) × Bytes)
  | 0x7b :: t =>
      match t with
      | 0x7d :: t2 => some ([], t2)
      | _ => parseMembers fuel t
  | _ => none

/-- Parse a byte string as a single JSON object (fuel: the input length,
which always suffices since every member consumes at least one byte). -/
def parseJsonObject (l : Bytes) : Option (List (Bytes × Json) × Bytes) :=
  parseRecord l.length l

/-- The JSON value a well-behaved `GoValue` must parse back to. -/
def jsonVal : GoValue → Json
  | .vNull => Json.jNull
  | .vBool b => Json.jBool b
  | .vInt n => Json.jNum n
  | .vUint n => Json.jNum n
  | .vStr s => Json.jStr (replaceInvalid s)
  | .vDur s => Json.jStr s
  | .vErr _ (some m) => Json.jStr (replaceInvalid m)
  | .vErr _ none => Json.jNull
  | .vStringer _ (some m) => Json.jStr (replaceInvalid m)
  | .vStringer _ none => Json.jNull
  | .vMarshaler (.error e) => Json.jStr (replaceInvalid (strBytes "JSONEncoderError: " ++ e))
  | .vMarshaler (.ok _) => Json.jNull
  | .vStrList l => Json.jArr (l.map (fun s => Json.jStr (replaceInvalid s)))

/-- The byte form of a well-behaved value (equal to what `appendAny`
appends). -/
def valueBytes : GoValue → Bytes
  | .vNull => strBytes "null"
  | .vBool b => if b then strBytes "true" else strBytes "false"
  | .vInt n => intDecimal n
  | .vUint n => natDecimal n
  | .vStr s => AppendJSONString [] s
  | .vDur s => 0x22 :: (s ++ [0x22])
  | .vErr _ (some m) => AppendJSONString [] m
  | .vErr _ none => []
  | .vStringer _ (some m) => AppendJSONString [] m
  | .vStringer _ none => []
  | .vMarshaler (.error e) => AppendJSONString [] (strBytes "JSONEncoderError: " ++ e)
  | .vMarshaler (.ok data) => data
  | .vStrList l => appendStrList [] l

/-- The bytes of one object member with its trailing comma, as `Encode`
appends them. -/
def memberChunk (k : Bytes) (vb : Bytes) : Bytes :=
  (AppendJSONString [] k ++ [0x3a]) ++ vb ++ [0x2c]

/-- The optional metadata members that `Start` emits, as triples of raw
key, value bytes, and the JSON value they parse back to. -/
def recMetaTriples (enc : JSONEncoder) (name timeBytes levelStr : Bytes) :
    List ((Bytes × Bytes) × Json) :=
  (if 0 < enc.TimeKey.length then
    [((enc.TimeKey, 0x22 :: (timeBytes ++ [0x22])), Json.jStr timeBytes)] else []) ++
  (if 0 < enc.LevelKey.length ∧ enc.hasLevelFormat then
    [((enc.LevelKey, AppendJSONString [] levelStr), Json.jStr (replaceInvalid levelStr))]
   else []) ++
  (if 0 < enc.LoggerKey.length ∧ 0 < name.length then
    [((enc.LoggerKey, AppendJSONString [] name), Json.jStr (replaceInvalid name))] else [])

/-- The chunk a member triple contributes to the record body. -/
def tripleChunk (m : (Bytes × Bytes) × Json) : Bytes := memberChunk m.1.1 m.1.2

/-- The next byte (if any) is not a decimal digit — the condition under
which a maximal-munch number parse stops exactly at a boundary. -/
def notDigitHead : Bytes → Prop
  | [] => True
  | b :: _ => ¬ (48 ≤ b ∧ b ≤ 57)

/-- The comma-prefixed tail elements of an encoded string array. -/
def strListTail (xs : List Bytes) : Bytes :=
  (xs.map (fun y => 0x2c :: AppendJSONString [] y)).flatten

/-- `vb` parses as the JSON value `j`, consuming exactly itself, whenever
enough fuel is supplied and the following byte is not a digit. -/
def ValueParses (vb : Bytes) (j : Json) : Prop :=
  ∀ (fuel : Nat) (rest : Bytes), (vb ++ rest).length ≤ fuel → notDigitHead rest →
    parseValue fuel (vb ++ rest) = some (j, rest)

/-! ## Levels (src/level.go) -/

/-- Model of `Level.String` (src/level.go lines 35-52); the default branch
is `fmt.Sprintf("LEVEL(%d)", l)`. -/
def levelString (l : Nat) : Bytes :=
  if l = 0 then strBytes "TRACE"
  else if l = 50 then strBytes "DEBUG"
  else if l = 100 then strBytes "INFO"
  else if l = 150 then strBytes "WARN"
  else if l = 200 then strBytes "ERROR"
  else if l = 255 then strBytes "FATAL"
  else (strBytes "LEVEL(" ++ natDecimal l) ++ strBytes ")"

/-- `strings.ToUpper`, restricted to ASCII input (all six level names are
ASCII; non-ASCII Unicode case mapping is outside the model). -/
def toUpperAscii (s : Bytes) : Bytes :=
  s.map (fun b => if 97 ≤ b ∧ b ≤ 122 then b - 32 else b)

/-- Model of `NameToLevel` (lines 54-83): case-insensitive lookup of the
six names; for an unknown name, the first caller-supplied default if any,
otherwise a panic (modelled by `none`). -/
def NameToLevel (level : Bytes) (defaultLevel : List Nat) : Option Nat :=
  if toUpperAscii level = strBytes "TRACE" then some 0
  else if toUpperAscii level = strBytes "DEBUG" then some 50
  else if toUpperAscii level = strBytes "INFO" then some 100
  else if toUpperAscii level = strBytes "WARN" then some 150
  else if toUpperAscii level = strBytes "ERROR" then some 200
  else if toUpperAscii level = strBytes "FATAL" then some 255
  else
    match defaultLevel with
    | d :: _ => some d
    | [] => none

/-! ## Level and sampling gate (src/engine.go) -/

/-- Modelled from the spec: `LvlTrace` of the int-level variant, the
minimal, most verbose level ("a reserved minimal value is the most
verbose", levels are "small non-negative ordered integers"); its defining
declaration is not under src/, only its uses. -/
def LvlTraceI : Int := 0

/-- Modelled from the spec: `LvlDisable` of the int-level variant, the
reserved maximal "disabled" sentinel; its defining declaration is not under
src/ (the gate only compares levels against it for equality). -/
def LvlDisableI : Int := 2147483647

/-- The initial value of the `globalSampling` atomic int32 cell
(src/unnamed/part_003 line 30): sampling starts enabled. -/
def globalSamplingInit : Int := 1

/-- Model of `globalSamplingIsEnabled` (src/unnamed/part_003 lines 32-34):
sampling is enabled while the cell holds 1. -/
def globalSamplingIsEnabled (globalSampling : Int) : Bool := globalSampling == 1

/-- Model of `GlobalDisableSampling` (src/unnamed/part_003 lines 36-43):
stores 0 into the cell to disable all sampling, 1 to re-enable it. -/
def GlobalDisableSampling (disable : Bool) : Int := if disable then 0 else 1

/-- Model of `Engine` (src/engine.go), restricted to the fields the gate
reads: logger name, own level, optional sampler. -/
structure Engine where
  name : Bytes
  level : Int
  sampler : Option (Bytes → Int → Bool)

/-- Model of `Engine.disabled` (src/engine.go lines 118-128): below the
threshold is disabled; otherwise ask the sampler when one is attached and
global sampling is on.  `globalSampling` is the current value of the
atomic cell read by `globalSamplingIsEnabled`. -/
def Engine.disabled (e : Engine) (globalSampling : Int)
    (logLevel minThresholdLevel : Int) : Bool :=
  if logLevel < minThresholdLevel then true
  else
    match e.sampler with
    | some sample =>
        if globalSamplingIsEnabled globalSampling then !(sample e.name logLevel) else false
    | none => false

/-- Model of `Engine.isDisabled` (lines 106-116): the disabled sentinel is
always suppressed; otherwise the threshold is the global override level
when set (i.e. not below `LvlTrace`), the engine's own level otherwise.
`globalLevel` is the value returned by `GetGlobalLevel()`, whose defining
declaration is not under src/ (the spec: negative = unset, a set value
takes precedence). -/
def Engine.isDisabled (e : Engine) (globalLevel globalSampling : Int) (level : Int) : Bool :=
  if level = LvlDisableI then true
  else if globalLevel < LvlTraceI then e.disabled globalSampling level e.level
  else e.disabled globalSampling level globalLevel

/-! ### Escaper lemmas -/

theorem utf8First_facts (b sz lo hi : Nat) (h : utf8First b = some (sz, lo, hi)) :
    0x80 ≤ lo ∧ hi ≤ 0xBF ∧ (sz = 2 ∨ sz = 3 ∨ sz = 4) := by
  unfold utf8First at h
  repeat' split at h
  all_goals simp_all
  all_goals omega

theorem decodeRune_classify (b : Nat) (t : Bytes) (hb : 0x80 ≤ b) :
    ((decodeRune (b :: t)).1 = runeError ∧ (decodeRune (b :: t)).2 = 1) ∨
    (2 ≤ (decodeRune (b :: t)).2 ∧ (decodeRune (b :: t)).2 ≤ (b :: t).length ∧
      ∀ x ∈ (b :: t).take (decodeRune (b :: t)).2, 0x80 ≤ x) := by
  have hnb : ¬ b < 0x80 := by omega
  unfold decodeRune
  simp only [if_neg hnb]
  cases hf : utf8First b with
  | none => left; exact ⟨rfl, rfl⟩
  | some x =>
    obtain ⟨sz, lo, hi⟩ := x
    obtain ⟨hlo, hhi, hsz⟩ := utf8First_facts b sz lo hi hf
    cases t with
    | nil => left; exact ⟨rfl, rfl⟩
    | cons b1 t1 =>
      dsimp only
      by_cases h1 : b1 < lo ∨ hi < b1
      · rw [if_pos h1]; left; exact ⟨rfl, rfl⟩
      · rw [if_neg h1]
        push_neg at h1
        by_cases h2 : sz = 2
        · rw [if_pos h2]
          right
          refine ⟨by omega, by simp, ?_⟩
          intro x hx
          simp only [List.take_cons, List.take_zero] at hx
          simp at hx
          rcases hx with rfl | rfl
          · exact hb
          · omega
        · rw [if_neg h2]
          cases t1 with
          | nil => left; exact ⟨rfl, rfl⟩
          | cons b2 t2 =>
            dsimp only
            by_cases h3 : b2 < 0x80 ∨ 0xBF < b2
            · rw [if_pos h3]; left; exact ⟨rfl, rfl⟩
            · rw [if_neg h3]
              push_neg at h3
              by_cases h4 : sz = 3
              · rw [if_pos h4]
                right
                refine ⟨by omega, by simp, ?_⟩
                intro x hx
                simp only [List.take_cons, List.take_zero] at hx
                simp at hx
                rcases hx with rfl | rfl | rfl
                · exact hb
                · omega
                · omega
              · rw [if_neg h4]
                cases t2 with
                | nil => left; exact ⟨rfl, rfl⟩
                | cons b3 t3 =>
                  dsimp only
                  by_cases h5 : b3 < 0x80 ∨ 0xBF < b3
                  · rw [if_pos h5]; left; exact ⟨rfl, rfl⟩
                  · rw [if_neg h5]
                    push_neg at h5
                    right
                    refine ⟨by omega, by simp, ?_⟩
                    intro x hx
                    simp only [List.take_cons, List.take_zero] at hx
                    simp at hx
                    rcases hx with rfl | rfl | rfl | rfl
                    · exact hb
                    · omega
                    · omega
                    · omega

end GoLog

namespace GoLog

theorem rangesDown_eq_downList : ∀ (k : Nat) (h : (-1 : Int) < 0),
    rangesDown (k : Int) 0 (-1) h = downList k := by
  intro k h
  induction k with
  | zero => rw [rangesDown]; simp [downList]
  | succ n ih =>
      rw [rangesDown]
      have h1 : ((n + 1 : Nat) : Int) > 0 := by positivity
      simp only [h1, if_pos]
      have h2 : ((n + 1 : Nat) : Int) + (-1) = (n : Int) := by push_cast; ring
      rw [h2, ih]
      rfl

theorem ranges_desc_eq (k : Nat) : ranges (k : Int) 0 (-1) = some (downList k) := by
  unfold ranges
  have h : ¬ (0 : Int) < -1 := by norm_num
  have h2 : (-1 : Int) < 0 := by norm_num
  simp only [dif_neg h, dif_pos h2, rangesDown_eq_downList]

theorem downList_mem (k : Nat) : ∀ i ∈ downList k, 1 ≤ i ∧ i ≤ (k : Int) := by
  induction k with
  | zero => intro i hi; simp [downList] at hi
  | succ n ih =>
      intro i hi
      simp only [downList, List.mem_cons] at hi
      rcases hi with rfl | hi
      · constructor <;> [push_cast; push_cast] <;> omega
      · have := ih i hi
        push_cast
        omega

theorem rotateStep_base (s : SizedRotatingFile) (i : Int) : (rotateStep s i).base = s.base := by
  unfold rotateStep; cases s.bak i <;> rfl

theorem rotateStep_fileOpen (s : SizedRotatingFile) (i : Int) :
    (rotateStep s i).fileOpen = s.fileOpen := by
  unfold rotateStep; cases s.bak i <;> rfl

theorem rotateStep_nbytes (s : SizedRotatingFile) (i : Int) :
    (rotateStep s i).nbytes = s.nbytes := by
  unfold rotateStep; cases s.bak i <;> rfl

theorem rotateStep_maxSize (s : SizedRotatingFile) (i : Int) :
    (rotateStep s i).maxSize = s.maxSize := by
  unfold rotateStep; cases s.bak i <;> rfl

theorem rotateStep_backupCount (s : SizedRotatingFile) (i : Int) :
    (rotateStep s i).backupCount = s.backupCount := by
  unfold rotateStep; cases s.bak i <;> rfl

theorem rotateStep_closed (s : SizedRotatingFile) (i : Int) :
    (rotateStep s i).closed = s.closed := by
  unfold rotateStep; cases s.bak i <;> rfl

theorem rotateStep_bak_ne (s : SizedRotatingFile) (i j : Int) (h1 : j ≠ i) (h2 : j ≠ i + 1) :
    (rotateStep s i).bak j = s.bak j := by
  unfold rotateStep
  cases s.bak i <;> simp [h1, h2]

theorem foldl_rotateStep_base (l : List Int) : ∀ s : SizedRotatingFile,
    (l.foldl rotateStep s).base = s.base := by
  induction l with
  | nil => intro s; rfl
  | cons a l ih => intro s; rw [List.foldl_cons, ih, rotateStep_base]

theorem foldl_rotateStep_fileOpen (l : List Int) : ∀ s : SizedRotatingFile,
    (l.foldl rotateStep s).fileOpen = s.fileOpen := by
  induction l with
  | nil => intro s; rfl
  | cons a l ih => intro s; rw [List.foldl_cons, ih, rotateStep_fileOpen]

theorem foldl_rotateStep_nbytes (l : List Int) : ∀ s : SizedRotatingFile,
    (l.foldl rotateStep s).nbytes = s.nbytes := by
  induction l with
  | nil => intro s; rfl
  | cons a l ih => intro s; rw [List.foldl_cons, ih, rotateStep_nbytes]

theorem foldl_rotateStep_maxSize (l : List Int) : ∀ s : SizedRotatingFile,
    (l.foldl rotateStep s).maxSize = s.maxSize := by
  induction l with
  | nil => intro s; rfl
  | cons a l ih => intro s; rw [List.foldl_cons, ih, rotateStep_maxSize]

theorem foldl_rotateStep_backupCount (l : List Int) : ∀ s : SizedRotatingFile,
    (l.foldl rotateStep s).backupCount = s.backupCount := by
  induction l with
  | nil => intro s; rfl
  | cons a l ih => intro s; rw [List.foldl_cons, ih, rotateStep_backupCount]

theorem foldl_rotateStep_closed (l : List Int) : ∀ s : SizedRotatingFile,
    (l.foldl rotateStep s).closed = s.closed := by
  induction l with
  | nil => intro s; rfl
  | cons a l ih => intro s; rw [List.foldl_cons, ih, rotateStep_closed]

/-- Indices untouched by the rename loop: the loop over `l` only touches
backup indices `i` and `i+1` for `i ∈ l`. -/
theorem foldl_rotateStep_untouched (l : List Int) : ∀ (s : SizedRotatingFile) (j : Int),
    (∀ i ∈ l, j ≠ i ∧ j ≠ i + 1) → (l.foldl rotateStep s).bak j = s.bak j := by
  induction l with
  | nil => intro s j _; rfl
  | cons a l ih =>
      intro s j h
      rw [List.foldl_cons, ih _ _ (fun i hi => h i (List.mem_cons_of_mem a hi)),
        rotateStep_bak_ne s a j (h a (List.mem_cons_self a l)).1 (h a (List.mem_cons_self a l)).2]

/-- The rename loop keeps backup indices within `[1, N]` provided every loop
index `i` satisfies `1 ≤ i` and `i + 1 ≤ N`. -/
theorem foldl_rotateStep_bakInv (N : Int) (l : List Int) :
    ∀ s : SizedRotatingFile, (∀ i ∈ l, 1 ≤ i ∧ i + 1 ≤ N) →
    (∀ j, s.bak j ≠ none → 1 ≤ j ∧ j ≤ N) →
    ∀ j, (l.foldl rotateStep s).bak j ≠ none → 1 ≤ j ∧ j ≤ N := by
  induction l with
  | nil => intro s _ hs j; exact hs j
  | cons a l ih =>
      intro s hl hs j hj
      refine ih _ (fun i hi => hl i (List.mem_cons_of_mem a hi)) ?_ j hj
      intro j' hj'
      by_cases h1 : j' = a + 1
      · subst h1
        have := hl a (List.mem_cons_self a l)
        omega
      · by_cases h2 : j' = a
        · have := hl a (List.mem_cons_self a l)
          omega
        · rw [rotateStep_bak_ne s a j' h2 h1] at hj'
          exact hs j' hj'

/-- The shift property of the rename loop run on `[k, ..., 1]`: an existing
backup at index `i ≤ k` ends up at index `i + 1` (so no backup is deleted
before it has been moved out of the way). -/
theorem foldl_rotateStep_shift (k : Nat) : ∀ (s : SizedRotatingFile) (i : Int),
    1 ≤ i → i ≤ (k : Int) → s.bak i ≠ none →
    ((downList k).foldl rotateStep s).bak (i + 1) = s.bak i := by
  induction k with
  | zero => intro s i h1 h2 _; omega
  | succ n ih =>
      intro s i h1 h2 hb
      simp only [downList, List.foldl_cons]
      by_cases hi : i = ((n + 1 : Nat) : Int)
      · subst hi
        have hstep : (rotateStep s ((n + 1 : Nat) : Int)).bak (((n + 1 : Nat) : Int) + 1) =
            s.bak ((n + 1 : Nat) : Int) := by
          unfold rotateStep
          cases h : s.bak ((n + 1 : Nat) : Int) with
          | none => exact absurd h hb
          | some c => simp [h]
        rw [foldl_rotateStep_untouched, hstep]
        intro i' hi'
        have := downList_mem n i' hi'
        push_cast
        omega
      · have hle : i ≤ (n : Int) := by push_cast at h2 ⊢; omega
        have hne : (rotateStep s ((n + 1 : Nat) : Int)).bak i = s.bak i := by
          apply rotateStep_bak_ne
          · omega
          · push_cast; omega
        rw [← hne] at hb ⊢
        exact ih _ i h1 hle hb

theorem ranges_backup (N : Int) (h : 1 ≤ N) :
    ranges (N - 1) 0 (-1) = some (downList (N - 1).toNat) := by
  have h2 : (((N - 1).toNat : Nat) : Int) = N - 1 := by omega
  have h3 := ranges_desc_eq (N - 1).toNat
  rwa [h2] at h3

/-- Full characterization of `doRollover` on the interesting path: positive
backup count, existing nonempty base file.  The base file is renamed to
`<path>.1`, every existing backup `i ≤ backupCount - 1` survives at `i + 1`,
and a fresh empty base file is opened with the byte counter reset. -/
theorem doRollover_spec (s : SizedRotatingFile) (c : Bytes) (hN : 1 ≤ s.backupCount)
    (hb : s.base = some c) (hc : c ≠ []) :
    s.doRollover.base = some [] ∧ s.doRollover.nbytes = 0 ∧ s.doRollover.fileOpen = true ∧
    s.doRollover.maxSize = s.maxSize ∧ s.doRollover.backupCount = s.backupCount ∧
    s.doRollover.closed = s.closed ∧
    s.doRollover.bak 1 = some c ∧
    (∀ i d, 1 ≤ i → i + 1 ≤ s.backupCount → s.bak i = some d →
      s.doRollover.bak (i + 1) = some d) := by
  have hlen : ¬ c.length = 0 := by simpa using hc
  have hpos : 0 < s.backupCount := hN
  unfold SizedRotatingFile.doRollover
  simp only [if_pos hpos, SizedRotatingFile.closeHandle, hb, hlen, if_false,
    ranges_backup s.backupCount hN, Option.getD_some, SizedRotatingFile.openF]
  refine ⟨rfl, rfl, trivial, foldl_rotateStep_maxSize _ _, foldl_rotateStep_backupCount _ _,
    foldl_rotateStep_closed _ _, ?_, ?_⟩
  · simp only [if_true]
    rw [foldl_rotateStep_base]
  · intro i d h1 h2 h3
    have hne : (i + 1 = 1) = False := eq_false (by omega)
    simp only [hne, if_false]
    have hk : i ≤ ((s.backupCount - 1).toNat : Int) := by omega
    have hnn : ({ s with base := some c, fileOpen := false } :
        SizedRotatingFile).bak i ≠ none := by simp [h3]
    rw [foldl_rotateStep_shift _ _ i h1 hk hnn]
    exact h3

/-- `doRollover` never creates a backup outside `[1, N]` when `N` is the
configured backup count. -/
theorem doRollover_bakInv (s : SizedRotatingFile) (N : Int) (hbc : s.backupCount = N)
    (hN : 1 ≤ N) (h : BakInv N s) : BakInv N s.doRollover := by
  unfold SizedRotatingFile.doRollover
  by_cases hpos : 0 < s.backupCount
  · simp only [if_pos hpos]
    cases hb : s.base with
    | none => simpa [SizedRotatingFile.closeHandle, hb, BakInv] using h
    | some c =>
        by_cases hlen : c.length = 0
        · simpa [SizedRotatingFile.closeHandle, hb, hlen, BakInv] using h
        · simp only [SizedRotatingFile.closeHandle, hb, hlen, if_false,
            ranges_backup s.backupCount hpos, Option.getD_some, SizedRotatingFile.openF, BakInv]
          intro j hj
          by_cases hj1 : j = 1
          · omega
          · simp only [hj1, if_false] at hj
            have hbinv : ∀ j', ({ s with base := some c, fileOpen := false } :
                SizedRotatingFile).bak j' ≠ none → 1 ≤ j' ∧ j' ≤ N := h
            refine foldl_rotateStep_bakInv N
              (downList (s.backupCount - 1).toNat) { s with base := some c, fileOpen := false }
              (fun i hi => ?_) hbinv j hj
            have := downList_mem (s.backupCount - 1).toNat i hi
            omega
  · simpa [if_neg hpos, BakInv] using h

theorem stepG_fst (p : SizedRotatingFile × Option Nat) (d : Bytes) :
    (stepG p d).1 = (p.1.Write d).1 := by
  unfold stepG SizedRotatingFile.Write
  by_cases hcl : p.1.closed <;> simp [hcl]

/-- One `Write` preserves the reachability invariants, with the ghost
last-trigger record updated as in `lastTriggerSize`. -/
theorem stepG_preserve (M N : Int) (hM : 0 < M) (hN : 1 ≤ N)
    (p : SizedRotatingFile × Option Nat) (d : Bytes)
    (h1 : SyncInv p.1) (h2 : BakInv N p.1) (h3 : BoundInv M p.1 p.2)
    (hmax : p.1.maxSize = M) (hbc : p.1.backupCount = N) :
    SyncInv (stepG p d).1 ∧ BakInv N (stepG p d).1 ∧
    BoundInv M (stepG p d).1 (stepG p d).2 ∧
    (stepG p d).1.maxSize = M ∧ (stepG p d).1.backupCount = N := by
  obtain ⟨s, t⟩ := p
  replace h1 : SyncInv s := h1
  replace h2 : BakInv N s := h2
  replace h3 : BoundInv M s t := h3
  replace hmax : s.maxSize = M := hmax
  replace hbc : s.backupCount = N := hbc
  by_cases hcl : s.closed
  · have hid : stepG (s, t) d = (s, t) := by unfold stepG; simp [hcl]
    rw [hid]
    exact ⟨h1, h2, h3, hmax, hbc⟩
  · have hopen : ∃ c1 : Bytes, (if s.fileOpen then s else s.openF).base = some c1 ∧
        (if s.fileOpen then s else s.openF).nbytes = c1.length ∧
        (if s.fileOpen then s else s.openF).fileOpen = true ∧
        (if s.fileOpen then s else s.openF).bak = s.bak ∧
        (if s.fileOpen then s else s.openF).maxSize = M ∧
        (if s.fileOpen then s else s.openF).backupCount = N ∧
        (if s.fileOpen then s else s.openF).closed = s.closed ∧
        ((s.nbytes : Int) ≤ M → ((if s.fileOpen then s else s.openF).nbytes : Int) ≤ M) := by
      by_cases hf : s.fileOpen
      · obtain ⟨c, hc1, hc2⟩ := h1.1 hf
        exact ⟨c, by simp [hf, hc1, hc2, hmax, hbc]⟩
      · have hget : s.base.getD [] = [] := h1.2 (by simpa using hf)
        refine ⟨[], ?_⟩
        simp [hf, SizedRotatingFile.openF, hget, hmax, hbc]
        omega
    obtain ⟨c1, hc1, hc2, hc3, hc4, hc5, hc6, hc7, hc8⟩ := hopen
    set s1 := if s.fileOpen then s else s.openF with hs1
    by_cases htr : (s1.nbytes : Int) + d.length > s1.maxSize
    · -- the write would cross the threshold: rollover first
      have hstep : stepG (s, t) d = ((s.Write d).1, some d.length) := by
        unfold stepG
        rw [← hs1]
        simp [hcl, htr]
      rw [hstep]
      have hwrite : (s.Write d).1 = if s1.doRollover.fileOpen then
          { s1.doRollover with
            base := some (s1.doRollover.base.getD [] ++ d)
            nbytes := s1.doRollover.nbytes + d.length }
          else s1.doRollover := by
        unfold SizedRotatingFile.Write
        rw [← hs1]
        simp only [hcl, Bool.false_eq_true, if_false, htr, if_true]
        by_cases hro : s1.doRollover.fileOpen <;> simp [hro]
      by_cases hnil : c1 = []
      · -- empty base file: the rollover returns early without reopening and
        -- the write on the nil handle fails
        subst hnil
        have hro : s1.doRollover = s1.closeHandle := by
          unfold SizedRotatingFile.doRollover
          have : 0 < s1.backupCount := by omega
          simp [this, hc1, SizedRotatingFile.closeHandle]
        have hroF : s1.doRollover.fileOpen = false := by
          rw [hro]; rfl
        rw [hwrite, hroF]
        simp only [if_false]
        rw [hro]
        have hnb : s1.nbytes = 0 := by simpa using hc2
        refine ⟨⟨by simp [SizedRotatingFile.closeHandle], ?_⟩, ?_, ?_, ?_, ?_⟩
        · intro _; simp [SizedRotatingFile.closeHandle, hc1]
        · intro j hj
          exact h2 j (by simpa [SizedRotatingFile.closeHandle, hc4] using hj)
        · left; simp [SizedRotatingFile.closeHandle, hnb]; omega
        · simpa [SizedRotatingFile.closeHandle] using hc5
        · simpa [SizedRotatingFile.closeHandle] using hc6
      · -- nonempty base file: full rotation, then the whole chunk lands in
        -- the fresh file
        obtain ⟨r1, r2, r3, r4, r5, _, _, _⟩ :=
          doRollover_spec s1 c1 (by omega) hc1 hnil
        rw [hwrite, r3]
        simp only [if_true]
        have hbak : BakInv N s1.doRollover := by
          refine doRollover_bakInv s1 N hc6 hN ?_
          intro j hj
          exact h2 j (by simpa [hc4] using hj)
        refine ⟨⟨?_, ?_⟩, ?_, ?_, ?_, ?_⟩
        · intro _
          exact ⟨d, by simp [r1, r2]⟩
        · intro hfo
          have hfo2 : s1.doRollover.fileOpen = false := hfo
          rw [r3] at hfo2
          exact absurd hfo2 (by simp)
        · intro j hj
          exact hbak j (by simpa using hj)
        · right; simp [r2]
        · simpa using (r4.trans hc5)
        · simpa using (r5.trans hc6)
    · -- no rollover: append below the threshold
      have hstep : stepG (s, t) d = ((s.Write d).1, t) := by
        unfold stepG
        rw [← hs1]
        simp [hcl, htr]
      have hwrite : (s.Write d).1 =
          { s1 with
            base := some (s1.base.getD [] ++ d)
            nbytes := s1.nbytes + d.length } := by
        unfold SizedRotatingFile.Write
        rw [← hs1]
        simp only [hcl, Bool.false_eq_true, if_false, htr, hc3, if_true]
      rw [hstep, hwrite]
      refine ⟨⟨?_, ?_⟩, ?_, ?_, ?_, ?_⟩
      · intro _
        exact ⟨c1 ++ d, by simp [hc1, hc2]⟩
      · intro hfo
        have hfo2 : s1.fileOpen = false := hfo
        rw [hc3] at hfo2
        exact absurd hfo2 (by simp)
      · intro j hj
        exact h2 j (by simpa [hc4] using hj)
      · left
        have hub : (s1.nbytes : Int) + d.length ≤ M := by rw [← hc5]; omega
        show ((s1.nbytes + d.length : Nat) : Int) ≤ M
        push_cast
        push_cast at hub
        omega
      · simpa using hc5
      · simpa using hc6

theorem foldG_fst (ws : List Bytes) : ∀ p, (ws.foldl stepG p).1 = applyWrites p.1 ws := by
  induction ws with
  | nil => intro p; rfl
  | cons d ws ih =>
      intro p
      show (ws.foldl stepG (stepG p d)).1 = _
      rw [ih, stepG_fst]
      rfl

theorem foldG_inv (M N : Int) (hM : 0 < M) (hN : 1 ≤ N) (ws : List Bytes) :
    ∀ p : SizedRotatingFile × Option Nat,
    SyncInv p.1 → BakInv N p.1 → BoundInv M p.1 p.2 →
    p.1.maxSize = M → p.1.backupCount = N →
    SyncInv (ws.foldl stepG p).1 ∧ BakInv N (ws.foldl stepG p).1 ∧
    BoundInv M (ws.foldl stepG p).1 (ws.foldl stepG p).2 ∧
    (ws.foldl stepG p).1.maxSize = M ∧ (ws.foldl stepG p).1.backupCount = N := by
  induction ws with
  | nil => intro p h1 h2 h3 h4 h5; exact ⟨h1, h2, h3, h4, h5⟩
  | cons d ws ih =>
      intro p h1 h2 h3 h4 h5
      obtain ⟨g1, g2, g3, g4, g5⟩ := stepG_preserve M N hM hN p d h1 h2 h3 h4 h5
      exact ih (stepG p d) g1 g2 g3 g4 g5

theorem New_maxSize_pos (filesize filenum : Int) :
    0 < (NewSizedRotatingFile filesize filenum).maxSize := by
  unfold NewSizedRotatingFile
  by_cases h : filenum ≤ 0 <;> by_cases h2 : filesize ≤ 0 <;> simp [h, h2] <;> omega

theorem New_syncInv (filesize filenum : Int) :
    SyncInv (NewSizedRotatingFile filesize filenum) := by
  constructor
  · intro h
    exact absurd h (by simp [NewSizedRotatingFile])
  · intro _
    simp [NewSizedRotatingFile]

theorem New_bakInv (filesize filenum : Int) (N : Int) :
    BakInv N (NewSizedRotatingFile filesize filenum) := by
  intro j hj
  exact absurd rfl hj

/-- Every `Write` call is all-or-nothing: either the whole chunk is
reported written with no error and the active file now ends with exactly
that chunk (the write is not split), or nothing is written and an error is
returned. -/
theorem Write_shape (t : SizedRotatingFile) (d : Bytes) :
    ((t.Write d).2.1 = d.length ∧ (t.Write d).2.2 = none ∧
      ∃ c0, (t.Write d).1.base = some (c0 ++ d)) ∨
    ((t.Write d).2.1 = 0 ∧ (t.Write d).2.2 ≠ none) := by
  unfold SizedRotatingFile.Write
  split
  · right; simp
  · dsimp only
    split <;> split <;> (try split) <;>
      first
        | exact Or.inl ⟨rfl, rfl, ⟨_, rfl⟩⟩
        | exact Or.inr ⟨rfl, by simp⟩

theorem doRollover_noop (s : SizedRotatingFile) (h : s.backupCount ≤ 0) :
    s.doRollover = s := by
  unfold SizedRotatingFile.doRollover
  rw [if_neg (by omega)]

/-- C1: with a positive backup count, after any sequence of `Write` calls
starting from a nonexistent base file the active file's byte count stays
within the configured max size, except that it may equal the size of the one
write that triggered the most recent rollover; moreover every write is
all-or-nothing (rotation happens before the write, the chunk is appended
whole and is never split across the threshold). -/
theorem claim_C1_rotation_size_bound (filesize filenum : Int) (ws : List Bytes)
    (hnum : 1 ≤ filenum) :
    (((applyWrites (NewSizedRotatingFile filesize filenum) ws).nbytes : Int) ≤
        (NewSizedRotatingFile filesize filenum).maxSize ∨
      lastTriggerSize (NewSizedRotatingFile filesize filenum) ws =
        some (applyWrites (NewSizedRotatingFile filesize filenum) ws).nbytes) ∧
    (∀ (t : SizedRotatingFile) (d : Bytes),
      ((t.Write d).2.1 = d.length ∧ (t.Write d).2.2 = none ∧
        ∃ c0, (t.Write d).1.base = some (c0 ++ d)) ∨
      ((t.Write d).2.1 = 0 ∧ (t.Write d).2.2 ≠ none)) := by
  constructor
  · have hinit : BoundInv (NewSizedRotatingFile filesize filenum).maxSize
        (NewSizedRotatingFile filesize filenum) none := by
      left
      have hM := New_maxSize_pos filesize filenum
      have h0 : (NewSizedRotatingFile filesize filenum).nbytes = 0 := rfl
      rw [h0]
      push_cast
      omega
    have hinv := foldG_inv (NewSizedRotatingFile filesize filenum).maxSize filenum
      (New_maxSize_pos filesize filenum) hnum ws (NewSizedRotatingFile filesize filenum, none)
      (New_syncInv filesize filenum) (New_bakInv filesize filenum filenum) hinit rfl rfl
    have hb := hinv.2.2.1
    rw [foldG_fst ws (NewSizedRotatingFile filesize filenum, none)] at hb
    exact hb
  · exact Write_shape

theorem claim_C1_rotation_size_bound_witness :
    (1 : Int) ≤ 2 ∧
    (((applyWrites (NewSizedRotatingFile 5 2) [[1, 2, 3]]).nbytes : Int) ≤
        (NewSizedRotatingFile 5 2).maxSize ∨
      lastTriggerSize (NewSizedRotatingFile 5 2) [[1, 2, 3]] =
        some (applyWrites (NewSizedRotatingFile 5 2) [[1, 2, 3]]).nbytes) :=
  ⟨by decide, (claim_C1_rotation_size_bound 5 2 [[1, 2, 3]] (by decide)).1⟩

/-- C2: with backup count `N ≥ 1`, after any write sequence backups exist
only at indices `1 .. N`; after a rotation of a nonempty base file,
`<path>.1` holds exactly the rotated-out content; the rename pass moves an
existing `<path>.i` (for `1 ≤ i ≤ N-1`) to `<path>.(i+1)`, so no backup is
overwritten before it has been moved; and the loop indices produced by
`ranges (N-1) 0 (-1)` are exactly `N-1, N-2, ..., 1`. -/
theorem claim_C2_backup_chain (filesize filenum : Int) (ws : List Bytes)
    (hnum : 1 ≤ filenum) :
    (∀ j, (applyWrites (NewSizedRotatingFile filesize filenum) ws).bak j ≠ none →
      1 ≤ j ∧ j ≤ filenum) ∧
    (∀ (s : SizedRotatingFile) (c : Bytes), 1 ≤ s.backupCount → s.base = some c → c ≠ [] →
      s.doRollover.bak 1 = some c) ∧
    (∀ (s : SizedRotatingFile) (c d : Bytes) (i : Int), 1 ≤ s.backupCount →
      s.base = some c → c ≠ [] → 1 ≤ i → i + 1 ≤ s.backupCount → s.bak i = some d →
      s.doRollover.bak (i + 1) = some d) ∧
    (∀ k : Nat, ranges (k : Int) 0 (-1) = some (downList k)) := by
  refine ⟨?_, ?_, ?_, ranges_desc_eq⟩
  · have hinit : BoundInv (NewSizedRotatingFile filesize filenum).maxSize
        (NewSizedRotatingFile filesize filenum) none := by
      left
      have hM := New_maxSize_pos filesize filenum
      have h0 : (NewSizedRotatingFile filesize filenum).nbytes = 0 := rfl
      rw [h0]
      push_cast
      omega
    have hinv := foldG_inv (NewSizedRotatingFile filesize filenum).maxSize filenum
      (New_maxSize_pos filesize filenum) hnum ws (NewSizedRotatingFile filesize filenum, none)
      (New_syncInv filesize filenum) (New_bakInv filesize filenum filenum) hinit rfl rfl
    have hb := hinv.2.1
    rw [foldG_fst ws (NewSizedRotatingFile filesize filenum, none)] at hb
    exact hb
  · intro s c hN hb hc
    exact (doRollover_spec s c hN hb hc).2.2.2.2.2.2.1
  · intro s c d i hN hb hc h1 h2 h3
    exact (doRollover_spec s c hN hb hc).2.2.2.2.2.2.2 i d h1 h2 h3

theorem claim_C2_backup_chain_witness :
    (1 : Int) ≤ 3 ∧
    ranges ((2 : Nat) : Int) 0 (-1) = some (downList 2) :=
  ⟨by decide, (claim_C2_backup_chain 10 3 [] (by decide)).2.2.2 2⟩

/-- C3: once `Close` has been called, the closed flag is set and the handle
is closed; a second `Close` is a no-op returning a nil error; and every
subsequent `Write` writes zero bytes, returns the descriptive error
"the file has been closed", and leaves the state untouched (the write is not
silently accepted and discarded). -/
theorem claim_C3_close_idempotent_write_fails (s : SizedRotatingFile) (data : Bytes)
    (h : s.closed = false) :
    s.Close.1.closed = true ∧ s.Close.1.fileOpen = false ∧ s.Close.2 = none ∧
    s.Close.1.Close = (s.Close.1, none) ∧
    s.Close.1.Write data = (s.Close.1, 0, some (strBytes "the file has been closed")) := by
  have h1 : s.Close = ({ s.closeHandle with closed := true }, none) := by
    unfold SizedRotatingFile.Close
    rw [if_neg (by simp [h])]
  refine ⟨by rw [h1], by rw [h1]; rfl, by rw [h1], ?_, ?_⟩
  · rw [h1]
    unfold SizedRotatingFile.Close
    rw [if_pos (by rfl)]
  · rw [h1]
    unfold SizedRotatingFile.Write
    rw [if_pos (by rfl)]

theorem claim_C3_close_idempotent_write_fails_witness :
    sampleOpenState.closed = false ∧
    sampleOpenState.Close.1.Write [7] =
      (sampleOpenState.Close.1, 0, some (strBytes "the file has been closed")) :=
  ⟨rfl, (claim_C3_close_idempotent_write_fails sampleOpenState [7] rfl).2.2.2.2⟩

/-- C4: a zero or negative backup count disables size-based rollover: the
constructor replaces the size threshold by `math.MaxInt32`, `doRollover` is
the identity (it closes, renames and deletes nothing), and every write on a
non-closed writer succeeds in full, appending the whole chunk and leaving
every backup file untouched — no write is ever lost to a rotation. -/
theorem claim_C4_zero_backups_no_rotation (filesize filenum : Int)
    (s : SizedRotatingFile) (data : Bytes)
    (hnum : filenum ≤ 0) (hbc : s.backupCount ≤ 0) (hcl : s.closed = false) :
    (NewSizedRotatingFile filesize filenum).maxSize = 2147483647 ∧
    s.doRollover = s ∧
    (s.Write data).2.1 = data.length ∧ (s.Write data).2.2 = none ∧
    (s.Write data).1.base =
      some ((if s.fileOpen then s else s.openF).base.getD [] ++ data) ∧
    (∀ j, (s.Write data).1.bak j = s.bak j) := by
  refine ⟨by simp [NewSizedRotatingFile, hnum], doRollover_noop s hbc, ?_⟩
  have hw : s.Write data =
      ({ (if s.fileOpen then s else s.openF) with
          base := some ((if s.fileOpen then s else s.openF).base.getD [] ++ data)
          nbytes := (if s.fileOpen then s else s.openF).nbytes + data.length },
        data.length, none) := by
    unfold SizedRotatingFile.Write
    rw [if_neg (by simp [hcl])]
    dsimp only
    have hb1 : (if s.fileOpen then s else s.openF).backupCount ≤ 0 := by
      by_cases hf : s.fileOpen <;> simp [hf, SizedRotatingFile.openF, hbc]
    have hro : (if s.fileOpen then s else s.openF).doRollover =
        (if s.fileOpen then s else s.openF) := doRollover_noop _ hb1
    have hfo : (if s.fileOpen then s else s.openF).fileOpen = true := by
      by_cases hf : s.fileOpen <;> simp [hf, SizedRotatingFile.openF]
    rw [hro, ite_self, if_pos hfo]
  rw [hw]
  refine ⟨rfl, rfl, rfl, ?_⟩
  intro j
  by_cases hf : s.fileOpen <;> simp [hf, SizedRotatingFile.openF]

theorem claim_C4_zero_backups_no_rotation_witness :
    (0 : Int) ≤ 0 ∧ sampleZeroState.backupCount ≤ 0 ∧ sampleZeroState.closed = false ∧
    (NewSizedRotatingFile 9 0).maxSize = 2147483647 :=
  ⟨by decide, by decide, rfl,
    (claim_C4_zero_backups_no_rotation 9 0 sampleZeroState [1]
      (by decide) (by decide) rfl).1⟩


theorem esc_nil : esc [] = [] := by
  unfold esc
  rfl

theorem esc_cons_err (b : Nat) (t : Bytes) (hb : 0x80 ≤ b)
    (he : (decodeRune (b :: t)).1 = runeError ∧ (decodeRune (b :: t)).2 = 1) :
    esc (b :: t) = ufffdLit ++ esc t := by
  unfold esc
  rw [if_pos hb]
  simp only [if_pos he]
  rw [← esc.eq_def]

theorem esc_cons_valid (b : Nat) (t : Bytes) (hb : 0x80 ≤ b)
    (he : ¬ ((decodeRune (b :: t)).1 = runeError ∧ (decodeRune (b :: t)).2 = 1)) :
    esc (b :: t) =
      (b :: t.take ((decodeRune (b :: t)).2 - 1)) ++ esc (t.drop ((decodeRune (b :: t)).2 - 1)) := by
  unfold esc
  rw [if_pos hb]
  simp only [if_neg he]
  rw [← esc.eq_def]

theorem esc_cons_safe (b : Nat) (t : Bytes) (hb : ¬ 0x80 ≤ b) (hs : noEscape b = true) :
    esc (b :: t) = b :: esc t := by
  unfold esc
  rw [if_neg hb, if_pos hs]
  rw [← esc.eq_def]

theorem esc_cons_escByte (b : Nat) (t : Bytes) (hb : ¬ 0x80 ≤ b) (hs : ¬ noEscape b = true) :
    esc (b :: t) = escByte b ++ esc t := by
  unfold esc
  rw [if_neg hb, if_neg hs]
  rw [← esc.eq_def]

theorem replaceInvalid_nil : replaceInvalid [] = [] := by
  unfold replaceInvalid
  rfl

theorem replaceInvalid_ascii (b : Nat) (t : Bytes) (hb : b < 0x80) :
    replaceInvalid (b :: t) = b :: replaceInvalid t := by
  unfold replaceInvalid
  rw [if_pos hb]
  rw [← replaceInvalid.eq_def]

theorem replaceInvalid_err (b : Nat) (t : Bytes) (hb : ¬ b < 0x80)
    (he : (decodeRune (b :: t)).1 = runeError ∧ (decodeRune (b :: t)).2 = 1) :
    replaceInvalid (b :: t) = 0xEF :: 0xBF :: 0xBD :: replaceInvalid t := by
  unfold replaceInvalid
  rw [if_neg hb]
  simp only [if_pos he]
  rw [← replaceInvalid.eq_def]

theorem replaceInvalid_valid (b : Nat) (t : Bytes) (hb : ¬ b < 0x80)
    (he : ¬ ((decodeRune (b :: t)).1 = runeError ∧ (decodeRune (b :: t)).2 = 1)) :
    replaceInvalid (b :: t) =
      (b :: t.take ((decodeRune (b :: t)).2 - 1)) ++
        replaceInvalid (t.drop ((decodeRune (b :: t)).2 - 1)) := by
  unfold replaceInvalid
  rw [if_neg hb]
  simp only [if_neg he]
  rw [← replaceInvalid.eq_def]

theorem sliceB_self (s : Bytes) (start : Nat) : sliceB s start start = [] := by
  simp [sliceB]

theorem sliceB_zero (s : Bytes) (i : Nat) : sliceB s 0 i = s.take i := by
  simp [sliceB]

theorem sliceB_chunk (s : Bytes) (start i sz : Nat) (h1 : start ≤ i) :
    sliceB s start (i + sz) = sliceB s start i ++ (s.drop i).take sz := by
  unfold sliceB
  have h2 : i + sz - start = (i - start) + sz := by omega
  rw [h2, List.take_add]
  congr 2
  rw [List.drop_drop]
  congr 1
  omega

/-- The scanning loop of `appendStringComplex` produces exactly the pending
chunk followed by the straight-line escape of the remaining suffix. -/
theorem aux_eq_esc (s : Bytes) : ∀ (n i start : Nat) (dst : Bytes),
    s.length - i ≤ n → start ≤ i → i ≤ s.length →
    appendStringComplexAux s i start dst = dst ++ sliceB s start i ++ esc (s.drop i) := by
  intro n
  induction n with
  | zero =>
      intro i start dst hn hsi hil
      have hi : i = s.length := by omega
      unfold appendStringComplexAux
      rw [dif_neg (by omega)]
      subst hi
      rw [List.drop_length, esc_nil, List.append_nil]
  | succ n ih =>
      intro i start dst hn hsi hil
      by_cases h : i < s.length
      · have hdrop : s.drop i = s.get ⟨i, h⟩ :: s.drop (i + 1) := List.drop_eq_getElem_cons h
        unfold appendStringComplexAux
        rw [dif_pos h]
        by_cases hb : 0x80 ≤ s.get ⟨i, h⟩
        · rw [if_pos hb]
          by_cases herr : (decodeRune (s.drop i)).1 = runeError ∧ (decodeRune (s.drop i)).2 = 1
          · simp only [if_pos herr]
            rw [ih (i + 1) (i + 1) _ (by omega) (by omega) (by omega)]
            rw [sliceB_self]
            rw [hdrop, esc_cons_err _ _ hb (by rwa [← hdrop])]
            simp [List.append_assoc]
          · simp only [if_neg herr]
            have hcl := decodeRune_classify (s.get ⟨i, h⟩) (s.drop (i + 1)) hb
            rw [← hdrop] at hcl
            rcases hcl with hcl | ⟨hsz2, hszle, _⟩
            · exact absurd hcl herr
            · set sz := (decodeRune (s.drop i)).2 with hszdef
              have hszlen : sz ≤ s.length - i := by
                have := hszle
                rw [hdrop] at this
                simp at this
                omega
              have heq : i + (sz - 1) + 1 = i + sz := by omega
              rw [heq, ih (i + sz) start _ (by omega) (by omega) (by omega)]
              rw [hdrop, esc_cons_valid _ _ hb (by rwa [← hdrop])]
              rw [← hdrop, ← hszdef]
              have htake : (s.drop i).take sz =
                  s.get ⟨i, h⟩ :: (s.drop (i + 1)).take (sz - 1) := by
                obtain ⟨m, hm⟩ : ∃ m, sz = m + 1 := ⟨sz - 1, by omega⟩
                rw [hm, hdrop, List.take_succ_cons, Nat.add_sub_cancel]
              have hdrop2 : (s.drop (i + 1)).drop (sz - 1) = s.drop (i + sz) := by
                rw [List.drop_drop]
                congr 1
                omega
              rw [sliceB_chunk s start i sz hsi, htake, hdrop2]
              simp [List.append_assoc]
        · rw [if_neg hb]
          have h1 : (s.drop i).take 1 = [s.get ⟨i, h⟩] := by rw [hdrop]; rfl
          by_cases hsafe : noEscape (s.get ⟨i, h⟩) = true
          · rw [if_pos hsafe]
            rw [ih (i + 1) start _ (by omega) (by omega) (by omega)]
            rw [show i + 1 = i + 1 from rfl, sliceB_chunk s start i 1 hsi, h1]
            rw [hdrop, esc_cons_safe _ _ hb hsafe]
            simp [List.append_assoc]
          · rw [if_neg hsafe]
            rw [ih (i + 1) (i + 1) _ (by omega) (by omega) (by omega)]
            rw [sliceB_self]
            rw [hdrop, esc_cons_escByte _ _ hb hsafe]
            simp [List.append_assoc]
      · have hi : i = s.length := by omega
        unfold appendStringComplexAux
        rw [dif_neg (by omega)]
        subst hi
        rw [List.drop_length, esc_nil, List.append_nil]

theorem firstUnsafe_none_spec : ∀ s : Bytes, firstUnsafe s = none → ∀ b ∈ s, noEscape b = true := by
  intro s
  induction s with
  | nil => intro _ b hb; simp at hb
  | cons a t ih =>
      intro h b hb
      unfold firstUnsafe at h
      by_cases ha : noEscape a
      · rw [if_pos ha] at h
        rcases List.mem_cons.1 hb with rfl | hb2
        · exact ha
        · exact ih (by cases h2 : firstUnsafe t <;> simp [h2] at h ⊢) b hb2
      · rw [if_neg ha] at h
        simp at h

theorem firstUnsafe_some_spec : ∀ (s : Bytes) (i : Nat), firstUnsafe s = some i →
    i ≤ s.length ∧ ∀ b ∈ s.take i, noEscape b = true := by
  intro s
  induction s with
  | nil => intro i h; simp [firstUnsafe] at h
  | cons a t ih =>
      intro i h
      unfold firstUnsafe at h
      by_cases ha : noEscape a
      · rw [if_pos ha] at h
        cases h2 : firstUnsafe t with
        | none => rw [h2] at h; simp at h
        | some j =>
            rw [h2] at h
            simp at h
            obtain ⟨hj1, hj2⟩ := ih j h2
            subst h
            refine ⟨by simp; omega, ?_⟩
            intro b hb
            rw [List.take_succ_cons] at hb
            rcases List.mem_cons.1 hb with rfl | hb2
            · exact ha
            · exact hj2 b hb2
      · rw [if_neg ha] at h
        simp at h
        subst h
        exact ⟨by simp, by simp⟩

theorem esc_all_safe : ∀ s : Bytes, (∀ b ∈ s, noEscape b = true) → esc s = s := by
  intro s
  induction s with
  | nil => intro _; exact esc_nil
  | cons a t ih =>
      intro h
      have ha : noEscape a = true := h a (List.mem_cons_self a t)
      have ha2 : ¬ 0x80 ≤ a := by
        have := of_decide_eq_true ha
        omega
      rw [esc_cons_safe a t ha2 ha, ih (fun b hb => h b (List.mem_cons_of_mem a hb))]

theorem esc_safe_prefix : ∀ (i : Nat) (s : Bytes), (∀ b ∈ s.take i, noEscape b = true) →
    esc s = s.take i ++ esc (s.drop i) := by
  intro i
  induction i with
  | zero => intro s _; simp
  | succ n ih =>
      intro s h
      cases s with
      | nil => simp
      | cons a t =>
          rw [List.take_succ_cons] at h ⊢
          have ha : noEscape a = true := h a (List.mem_cons_self _ _)
          have ha2 : ¬ 0x80 ≤ a := by
            have := of_decide_eq_true ha
            omega
          rw [esc_cons_safe a t ha2 ha, List.drop_succ_cons,
            ih t (fun b hb => h b (List.mem_cons_of_mem a hb))]
          simp

/-- `AppendJSONString` is the opening quote, the straight-line escape of the
input, and the closing quote. -/
theorem AppendJSONString_esc (dst s : Bytes) :
    AppendJSONString dst s = dst ++ 0x22 :: (esc s ++ [0x22]) := by
  unfold AppendJSONString
  cases hf : firstUnsafe s with
  | none =>
      dsimp only
      rw [esc_all_safe s (firstUnsafe_none_spec s hf)]
      simp
  | some i =>
      dsimp only
      obtain ⟨hi1, hi2⟩ := firstUnsafe_some_spec s i hf
      rw [aux_eq_esc s (s.length - i) i 0 (dst ++ [0x22]) (by omega) (by omega) hi1]
      rw [sliceB_zero, esc_safe_prefix i s hi2]
      simp

theorem parseStrBody_quote (rest : Bytes) : parseStrBody (0x22 :: rest) = some ([], rest) := by
  unfold parseStrBody
  rw [if_pos rfl]

theorem parseStrBody_cons_raw (b : Nat) (l : Bytes) (h1 : b ≠ 0x22) (h2 : b ≠ 0x5c)
    (h3 : ¬ b < 0x20) :
    parseStrBody (b :: l) = (parseStrBody l).map (fun p => (b :: p.1, p.2)) := by
  conv_lhs => rw [parseStrBody.eq_def]
  dsimp only
  rw [if_neg h1, if_neg h2, if_neg h3]

theorem parseStrBody_chunk_high (chunk : Bytes) (hc : ∀ b ∈ chunk, 0x80 ≤ b) : ∀ l : Bytes,
    parseStrBody (chunk ++ l) = (parseStrBody l).map (fun p => (chunk ++ p.1, p.2)) := by
  induction chunk with
  | nil =>
      intro l
      cases h : parseStrBody l with
      | none => simp [h]
      | some p => simp [h]
  | cons a c ih =>
      intro l
      have ha : 0x80 ≤ a := hc a (List.mem_cons_self a c)
      rw [List.cons_append,
        parseStrBody_cons_raw a _ (by omega) (by omega) (by omega),
        ih (fun b hb => hc b (List.mem_cons_of_mem a hb)) l]
      cases h : parseStrBody l with
      | none => simp
      | some p => simp

theorem parseHexDigit_hexDigit (n : Nat) (h : n < 16) :
    parseHexDigit (hexDigit n) = some n := by
  unfold parseHexDigit hexDigit
  by_cases h1 : n < 10
  · rw [if_pos h1, if_pos (by omega)]
    simp
  · rw [if_neg h1, if_neg (by omega), if_pos (by omega)]
    congr 1
    omega

theorem parseStrBody_ufffd (l : Bytes) :
    parseStrBody (ufffdLit ++ l) = (parseStrBody l).map (fun p => (0xEF :: 0xBF :: 0xBD :: p.1, p.2)) := by
  show parseStrBody (0x5c :: 117 :: 102 :: 102 :: 102 :: 100 :: l) = _
  conv_lhs => rw [parseStrBody.eq_def]
  norm_num [parseHexDigit, utf8Encode]

theorem parseStrBody_escByte (b : Nat) (hlt : b < 0x80) (hun : noEscape b = false) (l : Bytes) :
    parseStrBody (escByte b ++ l) = (parseStrBody l).map (fun p => (b :: p.1, p.2)) := by
  unfold escByte
  by_cases h1 : b = 0x22 ∨ b = 0x5c
  · rw [if_pos h1]
    rcases h1 with rfl | rfl
    · show parseStrBody (0x5c :: 0x22 :: l) = _
      conv_lhs => rw [parseStrBody.eq_def]
      norm_num
    · show parseStrBody (0x5c :: 0x5c :: l) = _
      conv_lhs => rw [parseStrBody.eq_def]
      norm_num
  · rw [if_neg h1]
    by_cases h2 : b = 8
    · subst h2
      rw [if_pos rfl]
      show parseStrBody (0x5c :: 98 :: l) = _
      conv_lhs => rw [parseStrBody.eq_def]
      norm_num
    · rw [if_neg h2]
      by_cases h3 : b = 12
      · subst h3
        rw [if_pos rfl]
        show parseStrBody (0x5c :: 102 :: l) = _
        conv_lhs => rw [parseStrBody.eq_def]
        norm_num
      · rw [if_neg h3]
        by_cases h4 : b = 10
        · subst h4
          rw [if_pos rfl]
          show parseStrBody (0x5c :: 110 :: l) = _
          conv_lhs => rw [parseStrBody.eq_def]
          norm_num
        · rw [if_neg h4]
          by_cases h5 : b = 13
          · subst h5
            rw [if_pos rfl]
            show parseStrBody (0x5c :: 114 :: l) = _
            conv_lhs => rw [parseStrBody.eq_def]
            norm_num
          · rw [if_neg h5]
            by_cases h6 : b = 9
            · subst h6
              rw [if_pos rfl]
              show parseStrBody (0x5c :: 116 :: l) = _
              conv_lhs => rw [parseStrBody.eq_def]
              norm_num
            · rw [if_neg h6]
              have hd1 : parseHexDigit (hexDigit (b / 16)) = some (b / 16) :=
                parseHexDigit_hexDigit _ (by omega)
              have hd2 : parseHexDigit (hexDigit (b % 16)) = some (b % 16) :=
                parseHexDigit_hexDigit _ (by omega)
              show parseStrBody (0x5c :: 117 :: 48 :: 48 :: hexDigit (b / 16) ::
                hexDigit (b % 16) :: l) = _
              have henc : utf8Encode b = [b] := by unfold utf8Encode; rw [if_pos hlt]
              have h48 : parseHexDigit 48 = some 0 := rfl
              conv_lhs => rw [parseStrBody.eq_def]
              dsimp only
              norm_num
              rw [h48, hd1, hd2]
              dsimp only
              norm_num [Nat.div_add_mod, henc]
              cases h : parseStrBody l with
              | none => simp [h]
              | some p =>
                  have hvv : b / 16 * 16 + b % 16 = b := by omega
                  simp [h, hvv, henc]

/-- Parsing the escaped body followed by a closing quote yields the input
with invalid UTF-8 bytes replaced by the replacement character. -/
theorem parse_esc_aux : ∀ (n : Nat) (s : Bytes), s.length ≤ n → ∀ rest : Bytes,
    parseStrBody (esc s ++ 0x22 :: rest) = some (replaceInvalid s, rest) := by
  intro n
  induction n with
  | zero =>
      intro s h rest
      have hs : s = [] := List.length_eq_zero.1 (by omega)
      subst hs
      rw [esc_nil, replaceInvalid_nil, List.nil_append, parseStrBody_quote]
  | succ n ih =>
      intro s h rest
      cases s with
      | nil => rw [esc_nil, replaceInvalid_nil, List.nil_append, parseStrBody_quote]
      | cons b t =>
          simp only [List.length_cons] at h
          by_cases hb : 0x80 ≤ b
          · rcases decodeRune_classify b t hb with herr | ⟨h2, _, h4⟩
            · rw [esc_cons_err b t hb herr, replaceInvalid_err b t (by omega) herr,
                List.append_assoc, parseStrBody_ufffd, ih t (by omega) rest]
              rfl
            · have hne : ¬ ((decodeRune (b :: t)).1 = runeError ∧ (decodeRune (b :: t)).2 = 1) := by
                intro hc
                omega
              rw [esc_cons_valid b t hb hne, replaceInvalid_valid b t (by omega) hne]
              set sz := (decodeRune (b :: t)).2 with hsz
              have htk : (b :: t).take sz = b :: t.take (sz - 1) := by
                obtain ⟨m, hm⟩ : ∃ m, sz = m + 1 := ⟨sz - 1, by omega⟩
                rw [hm, List.take_succ_cons, Nat.add_sub_cancel]
              have hchunk : ∀ x ∈ (b :: t.take (sz - 1)), 0x80 ≤ x := by
                intro x hx
                exact h4 x (by rw [htk]; exact hx)
              rw [List.append_assoc, parseStrBody_chunk_high _ hchunk,
                ih (t.drop (sz - 1)) (by simp [List.length_drop]; omega) rest]
              rfl
          · by_cases hs : noEscape b
            · have hfacts := of_decide_eq_true hs
              rw [esc_cons_safe b t hb hs, replaceInvalid_ascii b t (by omega),
                List.cons_append,
                parseStrBody_cons_raw b _ (by omega) (by omega) (by omega),
                ih t (by omega) rest]
              rfl
            · rw [esc_cons_escByte b t hb hs, replaceInvalid_ascii b t (by omega),
                List.append_assoc, parseStrBody_escByte b (by omega) (by simpa using hs),
                ih t (by omega) rest]
              rfl

/-- C6: for every byte string `s`, `AppendJSONString` appends a
syntactically valid JSON string literal — it parses as one, consuming
exactly the appended bytes — whose decoding is `s` with every byte at which
Go's UTF-8 decoder fails replaced by the replacement character `U+FFFD`;
and when every byte of `s` is in the unescaped-safe ASCII range
(`0x20..0x7e` minus quote and backslash, i.e. `noEscape`), the output is
exactly the opening quote, the bytes of `s` verbatim, and the closing
quote. -/
theorem claim_C6_escaper_roundtrip (s rest : Bytes) :
    parseStringLit (AppendJSONString [] s ++ rest) = some (replaceInvalid s, rest) ∧
    (∀ dst : Bytes, (∀ b ∈ s, noEscape b = true) →
      AppendJSONString dst s = dst ++ 0x22 :: (s ++ [0x22])) := by
  constructor
  · rw [AppendJSONString_esc]
    simp only [List.nil_append, List.cons_append, List.append_assoc, List.singleton_append]
    unfold parseStringLit
    dsimp only
    rw [if_pos rfl]
    exact parse_esc_aux s.length s le_rfl rest
  · intro dst hsafe
    rw [AppendJSONString_esc, esc_all_safe s hsafe]

theorem claim_C6_escaper_roundtrip_witness :
    (∀ b ∈ ([104, 105] : Bytes), noEscape b = true) ∧
    AppendJSONString [] [104, 105] = [] ++ 0x22 :: (([104, 105] : Bytes) ++ [0x22]) :=
  ⟨by decide, (claim_C6_escaper_roundtrip [104, 105] []).2 [] (by decide)⟩

/-- Uppercasing is idempotent on ASCII. -/
theorem toUpperAscii_idem (s : Bytes) : toUpperAscii (toUpperAscii s) = toUpperAscii s := by
  unfold toUpperAscii
  rw [List.map_map]
  apply List.map_congr_left
  intro b _
  by_cases h : 97 ≤ b ∧ b ≤ 122
  · simp only [Function.comp_apply, if_pos h]
    rw [if_neg (by omega)]
  · simp only [Function.comp_apply, if_neg h, if_neg h]

/-- C7: whenever the global override level is set (not the negative unset
sentinel), the gate's decision for any requested level other than the
disabled sentinel is: suppressed iff the level is below the global override
or, for levels that pass that threshold, iff the attached sampler rejects
it (when global sampling is on).  The right-hand side does not mention the
logger's own configured level, so the threshold decision is independent of
it, and sampling is evaluated only after the threshold passes. -/
theorem claim_C7_global_override (globalLevel globalSampling : Int) (name : Bytes) (own : Int)
    (smp : Option (Bytes → Int → Bool)) (lvl : Int)
    (hset : LvlTraceI ≤ globalLevel) (hlvl : lvl ≠ LvlDisableI) :
    Engine.isDisabled ⟨name, own, smp⟩ globalLevel globalSampling lvl =
      if lvl < globalLevel then true
      else
        match smp with
        | some sample =>
            if globalSamplingIsEnabled globalSampling then !(sample name lvl) else false
        | none => false := by
  unfold Engine.isDisabled
  rw [if_neg hlvl, if_neg (by omega)]
  rfl

theorem claim_C7_global_override_witness :
    LvlTraceI ≤ (100 : Int) ∧ (50 : Int) ≠ LvlDisableI ∧
    Engine.isDisabled ⟨strBytes "app", 0, none⟩ 100 (GlobalDisableSampling false) 50 =
      (if (50 : Int) < (100 : Int) then true
        else
          match (none : Option (Bytes → Int → Bool)) with
          | some sample =>
              if globalSamplingIsEnabled (GlobalDisableSampling false) then
                !(sample (strBytes "app") 50) else false
          | none => false) :=
  ⟨by decide, by decide,
    claim_C7_global_override 100 (GlobalDisableSampling false) (strBytes "app") 0 none 50
      (by decide) (by decide)⟩

/-- C10: the six named levels round-trip through their display strings
(`NameToLevel (l.String()) = l`; the display strings are upper-case and
parsing is case-insensitive, i.e. invariant under uppercasing the input),
and an unrecognized name yields the caller-supplied default when one is
given and otherwise panics (`none`). -/
theorem claim_C10_level_name_roundtrip (ds : List Nat) (name : Bytes) (d : Nat) :
    (∀ l ∈ [0, 50, 100, 150, 200, 255], NameToLevel (levelString l) ds = some l) ∧
    NameToLevel name ds = NameToLevel (toUpperAscii name) ds ∧
    (toUpperAscii name ∉ [strBytes "TRACE", strBytes "DEBUG", strBytes "INFO",
        strBytes "WARN", strBytes "ERROR", strBytes "FATAL"] →
      NameToLevel name [] = none ∧ NameToLevel name (d :: ds) = some d) := by
  refine ⟨?_, ?_, ?_⟩
  · intro l hl
    simp only [List.mem_cons, List.not_mem_nil, or_false] at hl
    rcases hl with rfl | rfl | rfl | rfl | rfl | rfl <;> rfl
  · unfold NameToLevel
    rw [toUpperAscii_idem]
  · intro h
    simp only [List.mem_cons, List.not_mem_nil, or_false, not_or] at h
    obtain ⟨h1, h2, h3, h4, h5, h6⟩ := h
    unfold NameToLevel
    rw [if_neg h1, if_neg h2, if_neg h3, if_neg h4, if_neg h5, if_neg h6,
      if_neg h1, if_neg h2, if_neg h3, if_neg h4, if_neg h5, if_neg h6]
    exact ⟨rfl, rfl⟩

theorem claim_C10_level_name_roundtrip_witness :
    (toUpperAscii (strBytes "nope") ∉ [strBytes "TRACE", strBytes "DEBUG", strBytes "INFO",
        strBytes "WARN", strBytes "ERROR", strBytes "FATAL"]) ∧
    NameToLevel (strBytes "nope") [] = none ∧ NameToLevel (strBytes "nope") [7] = some 7 :=
  ⟨by decide, (claim_C10_level_name_roundtrip [] (strBytes "nope") 7).2.2 (by decide)⟩

theorem AppendJSONString_hom (buf s : Bytes) :
    AppendJSONString buf s = buf ++ AppendJSONString [] s := by
  rw [AppendJSONString_esc, AppendJSONString_esc]
  simp

theorem AppendJSONString_len (s : Bytes) : 2 ≤ (AppendJSONString [] s).length := by
  rw [AppendJSONString_esc]
  simp

/-- Helper shared by the escaper and record claims: an appended string
literal parses back, consuming exactly itself. -/
theorem parseStringLit_append (s r : Bytes) :
    parseStringLit (AppendJSONString [] s ++ r) = some (replaceInvalid s, r) := by
  rw [AppendJSONString_esc]
  simp only [List.nil_append, List.cons_append, List.append_assoc, List.singleton_append]
  unfold parseStringLit
  dsimp only
  rw [if_pos rfl]
  exact parse_esc_aux s.length s le_rfl r

/-- Safe ASCII bytes are consumed verbatim by the string-body parser. -/
theorem parseStrBody_chunk_safe (chunk : Bytes) (hc : ∀ b ∈ chunk, noEscape b = true) :
    ∀ l : Bytes,
    parseStrBody (chunk ++ l) = (parseStrBody l).map (fun p => (chunk ++ p.1, p.2)) := by
  induction chunk with
  | nil =>
      intro l
      cases h : parseStrBody l with
      | none => simp [h]
      | some p => simp [h]
  | cons a c ih =>
      intro l
      have ha := of_decide_eq_true (hc a (List.mem_cons_self a c))
      rw [List.cons_append,
        parseStrBody_cons_raw a _ (by omega) (by omega) (by omega),
        ih (fun b hb => hc b (List.mem_cons_of_mem a hb)) l]
      cases h : parseStrBody l with
      | none => simp [h]
      | some p => simp [h]

theorem foldl_strlist (xs : List Bytes) : ∀ acc : Bytes,
    xs.foldl (fun a y => AppendJSONString (a ++ [0x2c]) y) acc = acc ++ strListTail xs := by
  induction xs with
  | nil => intro acc; simp [strListTail]
  | cons y ys ih =>
      intro acc
      rw [List.foldl_cons, ih, AppendJSONString_hom]
      simp [strListTail]

theorem appendStrList_nil (buf : Bytes) : appendStrList buf [] = buf ++ [0x5b, 0x5d] := by
  simp [appendStrList]

theorem appendStrList_cons (buf x : Bytes) (xs : List Bytes) :
    appendStrList buf (x :: xs) =
      buf ++ 0x5b :: (AppendJSONString [] x ++ strListTail xs ++ [0x5d]) := by
  unfold appendStrList
  dsimp only
  rw [foldl_strlist, AppendJSONString_hom]
  simp

/-- For a well-behaved value `appendAny` never crashes and appends exactly
`valueBytes`. -/
theorem appendAny_eq (buf : Bytes) (v : GoValue) (hw : wellBehaved v) :
    appendAny buf v = some (buf ++ valueBytes v) := by
  cases v with
  | vNull => rfl
  | vBool b => cases b <;> rfl
  | vInt n => rfl
  | vUint n => rfl
  | vStr s =>
      simp only [appendAny, valueBytes]
      rw [AppendJSONString_hom]
  | vDur s => rfl
  | vErr isNil msg =>
      cases msg with
      | none => exact hw.elim
      | some m =>
          simp only [appendAny, valueBytes]
          rw [AppendJSONString_hom]
  | vStringer isNil msg =>
      cases msg with
      | none => exact hw.elim
      | some m =>
          simp only [appendAny, valueBytes]
          rw [AppendJSONString_hom]
  | vMarshaler res =>
      cases res with
      | error e =>
          simp only [appendAny, valueBytes]
          rw [AppendJSONString_hom]
      | ok data => exact hw.elim
  | vStrList l =>
      cases l with
      | nil => simp [appendAny, valueBytes, appendStrList_nil]
      | cons x xs => simp [appendAny, valueBytes, appendStrList_cons]

theorem parseDigits_nil (acc : Nat) : parseDigits [] acc = (acc, []) := rfl

theorem parseDigits_cons (b : Nat) (t : Bytes) (acc : Nat) :
    parseDigits (b :: t) acc =
      if 48 ≤ b ∧ b ≤ 57 then parseDigits t (acc * 10 + (b - 48)) else (acc, b :: t) := rfl

theorem parseDigits_stop (rest : Bytes) (acc : Nat) (h : notDigitHead rest) :
    parseDigits rest acc = (acc, rest) := by
  cases rest with
  | nil => rfl
  | cons b t => rw [parseDigits_cons, if_neg h]

theorem parseDigits_natDecimal : ∀ (fuel n acc : Nat) (rest : Bytes), n ≤ fuel →
    parseDigits (natDecimal n ++ rest) acc =
      parseDigits rest (acc * 10 ^ (natDecimal n).length + n) := by
  intro fuel
  induction fuel with
  | zero =>
      intro n acc rest hn
      have h0 : n = 0 := by omega
      subst h0
      have h1 : natDecimal 0 = [48] := by unfold natDecimal; norm_num
      rw [h1, List.cons_append, parseDigits_cons, if_pos (by omega)]
      norm_num
  | succ f ih =>
      intro n acc rest hn
      by_cases h : n < 10
      · have h1 : natDecimal n = [48 + n] := by unfold natDecimal; rw [if_pos h]
        rw [h1, List.cons_append, parseDigits_cons, if_pos (by omega)]
        have h2 : 48 + n - 48 = n := by omega
        rw [List.nil_append, h2]
        norm_num
      · have h1 : natDecimal n = natDecimal (n / 10) ++ [48 + n % 10] := by
          conv_lhs => rw [natDecimal.eq_def]
          rw [if_neg h]
        rw [h1, List.append_assoc, ih (n / 10) acc _ (by omega), List.cons_append,
          parseDigits_cons, if_pos (by omega)]
        congr 1
        have h2 : 48 + n % 10 - 48 = n % 10 := by omega
        rw [h2, show (natDecimal (n / 10) ++ [48 + n % 10]).length =
            (natDecimal (n / 10)).length + 1 from by simp, pow_succ]
        have hdm : n / 10 * 10 + n % 10 = n := by omega
        calc (acc * 10 ^ (natDecimal (n / 10)).length + n / 10) * 10 + n % 10 =
            acc * (10 ^ (natDecimal (n / 10)).length * 10) + (n / 10 * 10 + n % 10) := by ring
          _ = acc * (10 ^ (natDecimal (n / 10)).length * 10) + n := by rw [hdm]

theorem natDecimal_head : ∀ (fuel n : Nat), n ≤ fuel →
    ∃ d t, natDecimal n = d :: t ∧ 48 ≤ d ∧ d ≤ 57 ∧ (1 ≤ n → 49 ≤ d) := by
  intro fuel
  induction fuel with
  | zero =>
      intro n hn
      have h0 : n = 0 := by omega
      subst h0
      exact ⟨48, [], by unfold natDecimal; norm_num, by omega, by omega, by omega⟩
  | succ f ih =>
      intro n hn
      by_cases h : n < 10
      · exact ⟨48 + n, [], by unfold natDecimal; rw [if_pos h], by omega, by omega, by omega⟩
      · have h1 : natDecimal n = natDecimal (n / 10) ++ [48 + n % 10] := by
          conv_lhs => rw [natDecimal.eq_def]
          rw [if_neg h]
        obtain ⟨d, t, hd, h48, h57, h49⟩ := ih (n / 10) (by omega)
        refine ⟨d, t ++ [48 + n % 10], by rw [h1, hd]; rfl, h48, h57, fun _ => h49 (by omega)⟩

theorem parseNumMag_cons (b : Nat) (t : Bytes) :
    parseNumMag (b :: t) =
      if b = 48 then some (0, t)
      else if 49 ≤ b ∧ b ≤ 57 then some (parseDigits (b :: t) 0)
      else none := rfl

theorem parseNumMag_natDecimal (n : Nat) (rest : Bytes) (h : notDigitHead rest) :
    parseNumMag (natDecimal n ++ rest) = some (n, rest) := by
  by_cases h0 : n = 0
  · subst h0
    have h1 : natDecimal 0 = [48] := by unfold natDecimal; norm_num
    rw [h1, List.cons_append, parseNumMag_cons, if_pos rfl]
    simp
  · obtain ⟨d, t, hd, _, h57, h49⟩ := natDecimal_head n n le_rfl
    have h49 := h49 (by omega)
    rw [hd, List.cons_append, parseNumMag_cons, if_neg (by omega), if_pos (by omega)]
    rw [show d :: (t ++ rest) = natDecimal n ++ rest from by rw [hd]; rfl]
    rw [parseDigits_natDecimal n n 0 rest le_rfl, parseDigits_stop rest _ h]
    simp

theorem parseNumber_cons45 (t : Bytes) :
    parseNumber (45 :: t) = (parseNumMag t).map (fun p => (-(p.1 : Int), p.2)) := rfl

theorem parseNumber_no45 (b : Nat) (t : Bytes) (h : b ≠ 45) :
    parseNumber (b :: t) = (parseNumMag (b :: t)).map (fun p => ((p.1 : Int), p.2)) := by
  unfold parseNumber
  split
  · rename_i heq
    rw [List.cons.injEq] at heq
    exact absurd heq.1 h
  · rfl

theorem parseNumber_intDecimal (i : Int) (rest : Bytes) (h : notDigitHead rest) :
    parseNumber (intDecimal i ++ rest) = some (i, rest) := by
  unfold intDecimal
  by_cases hi : i < 0
  · rw [if_pos hi, List.cons_append, parseNumber_cons45, parseNumMag_natDecimal _ _ h]
    simp
    omega
  · rw [if_neg hi]
    obtain ⟨d, t, hd, h48, h57, _⟩ := natDecimal_head i.toNat i.toNat le_rfl
    rw [hd, List.cons_append, parseNumber_no45 d _ (by omega),
      show d :: (t ++ rest) = natDecimal i.toNat ++ rest from by rw [hd]; rfl,
      parseNumMag_natDecimal _ _ h]
    simp
    omega

/-- C8: counterexample.  The spec says a typed-nil `error`/`Stringer`
interface value still hits dispatch rule 1 and encodes `null`; in the code
(src/encoder/json.go lines 196-374) `case nil` matches only the untyped nil
interface, so a typed-nil error dispatches to the `case error` branch and
calls `Error()` on the nil receiver: the output is the method's string, not
`null`, and a panicking method crashes the encode. -/
theorem claim_C8_nil_error_counterexample :
    appendAny [] (GoValue.vErr true (some (strBytes "nil"))) ≠ some (strBytes "null") ∧
    appendAny [] (GoValue.vErr true none) = none ∧
    appendAny [] (GoValue.vStringer true none) = none := by
  refine ⟨by decide, rfl, rfl⟩

/-- C8 (amended): only the untyped nil interface value encodes `null`
(dispatch rule 1); an interface whose dynamic type is `error` or
`fmt.Stringer` with a nil underlying value is dispatched to the
`error`/`Stringer` case regardless, invoking the method on the nil
receiver: if the method returns, its string is encoded, and if it panics
the encode crashes. -/
theorem claim_C8_nil_error_amended :
    (∀ buf, appendAny buf GoValue.vNull = some (buf ++ strBytes "null")) ∧
    (∀ buf isNil m, appendAny buf (GoValue.vErr isNil (some m)) =
        some (AppendJSONString buf m)) ∧
    (∀ buf isNil, appendAny buf (GoValue.vErr isNil none) = none) ∧
    (∀ buf isNil m, appendAny buf (GoValue.vStringer isNil (some m)) =
        some (AppendJSONString buf m)) ∧
    (∀ buf isNil, appendAny buf (GoValue.vStringer isNil none) = none) :=
  ⟨fun _ => rfl, fun _ _ _ => rfl, fun _ _ => rfl, fun _ _ _ => rfl, fun _ _ => rfl⟩

theorem parseNumber_natDecimal (n : Nat) (rest : Bytes) (h : notDigitHead rest) :
    parseNumber (natDecimal n ++ rest) = some ((n : Int), rest) := by
  obtain ⟨d, t, hd, h48, h57, _⟩ := natDecimal_head n n le_rfl
  rw [hd, List.cons_append, parseNumber_no45 d _ (by omega),
    show d :: (t ++ rest) = natDecimal n ++ rest from by rw [hd]; rfl,
    parseNumMag_natDecimal _ _ h]
  rfl

/-- A string literal is parsed back as a value regardless of fuel and of
what follows. -/
theorem parseValue_strlit (fuel : Nat) (s rest : Bytes) :
    parseValue fuel (AppendJSONString [] s ++ rest) =
      some (Json.jStr (replaceInvalid s), rest) := by
  rw [AppendJSONString_esc]
  simp only [List.nil_append, List.cons_append, List.append_assoc, List.singleton_append]
  simp only [parseValue, if_true]
  rw [parse_esc_aux s.length s le_rfl rest]
  rfl

theorem strListTail_nil : strListTail [] = [] := rfl

theorem strListTail_cons (y : Bytes) (ys : List Bytes) :
    strListTail (y :: ys) = 0x2c :: (AppendJSONString [] y ++ strListTail ys) := by
  simp [strListTail]

theorem strListTail_len (xs : List Bytes) : xs.length ≤ (strListTail xs).length := by
  induction xs with
  | nil => simp [strListTail_nil]
  | cons y ys ih =>
      rw [strListTail_cons]
      have := AppendJSONString_len y
      simp only [List.length_cons, List.length_append]
      omega

theorem parseStrArrayLoop_strs : ∀ (fuel : Nat) (x : Bytes) (xs : List Bytes) (rest : Bytes),
    (x :: xs).length ≤ fuel →
    parseStrArrayLoop fuel
        (AppendJSONString [] x ++ (strListTail xs ++ (0x5d :: rest))) =
      some ((x :: xs).map replaceInvalid, rest) := by
  intro fuel
  induction fuel with
  | zero =>
      intro x xs rest hf
      simp at hf
  | succ f ih =>
      intro x xs rest hf
      cases xs with
      | nil =>
          show parseStrArrayLoop (f + 1) _ = _
          unfold parseStrArrayLoop
          rw [strListTail_nil, List.nil_append, parseStringLit_append x (0x5d :: rest)]
          rfl
      | cons y ys =>
          show parseStrArrayLoop (f + 1) _ = _
          unfold parseStrArrayLoop
          rw [strListTail_cons, List.cons_append, List.append_assoc,
            parseStringLit_append x _]
          dsimp only
          rw [ih y ys rest (by simp at hf ⊢; omega)]
          rfl

theorem intDecimal_head (i : Int) :
    ∃ b t, intDecimal i = b :: t ∧ (b = 45 ∨ (48 ≤ b ∧ b ≤ 57)) := by
  unfold intDecimal
  by_cases hi : i < 0
  · exact ⟨45, natDecimal (-i).toNat, by rw [if_pos hi], Or.inl rfl⟩
  · obtain ⟨d, t, hd, h48, h57, _⟩ := natDecimal_head i.toNat i.toNat le_rfl
    exact ⟨d, t, by rw [if_neg hi, hd], Or.inr ⟨h48, h57⟩⟩

theorem parseValue_arr_cons (fuel : Nat) (w : Bytes) :
    parseValue fuel (0x5b :: 0x22 :: w) =
      (parseStrArrayLoop fuel (0x22 :: w)).map
        (fun p => (Json.jArr (p.1.map Json.jStr), p.2)) := rfl

/-- Every well-behaved value's byte form parses back as its JSON value. -/
theorem parseValue_bytes (v : GoValue) (hw : wellBehaved v) :
    ValueParses (valueBytes v) (jsonVal v) := by
  cases v with
  | vNull =>
      intro fuel rest hf hd
      have h : valueBytes GoValue.vNull ++ rest = 110 :: 117 :: 108 :: 108 :: rest := rfl
      rw [h]
      rfl
  | vBool b =>
      intro fuel rest hf hd
      cases b with
      | true =>
          have h : valueBytes (GoValue.vBool true) ++ rest = 116 :: 114 :: 117 :: 101 :: rest := rfl
          rw [h]
          rfl
      | false =>
          have h : valueBytes (GoValue.vBool false) ++ rest =
              102 :: 97 :: 108 :: 115 :: 101 :: rest := rfl
          rw [h]
          rfl
  | vInt n =>
      intro fuel rest hf hd
      simp only [valueBytes, jsonVal]
      obtain ⟨b, t, hb, hcase⟩ := intDecimal_head n
      have hne : b ≠ 34 ∧ b ≠ 91 ∧ b ≠ 110 ∧ b ≠ 116 ∧ b ≠ 102 := by
        rcases hcase with h | h <;> omega
      rw [hb, List.cons_append]
      simp only [parseValue]
      rw [if_neg hne.1, if_neg hne.2.1, if_neg hne.2.2.1, if_neg hne.2.2.2.1,
        if_neg hne.2.2.2.2,
        show b :: (t ++ rest) = intDecimal n ++ rest from by rw [hb]; rfl,
        parseNumber_intDecimal n rest hd]
      rfl
  | vUint n =>
      intro fuel rest hf hd
      simp only [valueBytes, jsonVal]
      obtain ⟨d, t, hb, h48, h57, _⟩ := natDecimal_head n n le_rfl
      have hne : d ≠ 34 ∧ d ≠ 91 ∧ d ≠ 110 ∧ d ≠ 116 ∧ d ≠ 102 := by omega
      rw [hb, List.cons_append]
      simp only [parseValue]
      rw [if_neg hne.1, if_neg hne.2.1, if_neg hne.2.2.1, if_neg hne.2.2.2.1,
        if_neg hne.2.2.2.2,
        show d :: (t ++ rest) = natDecimal n ++ rest from by rw [hb]; rfl,
        parseNumber_natDecimal n rest hd]
      rfl
  | vStr s =>
      intro fuel rest hf hd
      simp only [valueBytes, jsonVal]
      exact parseValue_strlit fuel s rest
  | vDur s =>
      intro fuel rest hf hd
      simp only [valueBytes, jsonVal]
      simp only [List.cons_append, List.append_assoc, List.singleton_append, List.nil_append]
      simp only [parseValue, if_true]
      rw [parseStrBody_chunk_safe s hw (0x22 :: rest), parseStrBody_quote]
      simp
  | vErr isNil msg =>
      cases msg with
      | none => exact hw.elim
      | some m =>
          intro fuel rest hf hd
          simp only [valueBytes, jsonVal]
          exact parseValue_strlit fuel m rest
  | vStringer isNil msg =>
      cases msg with
      | none => exact hw.elim
      | some m =>
          intro fuel rest hf hd
          simp only [valueBytes, jsonVal]
          exact parseValue_strlit fuel m rest
  | vMarshaler res =>
      cases res with
      | ok data => exact hw.elim
      | error e =>
          intro fuel rest hf hd
          simp only [valueBytes, jsonVal]
          exact parseValue_strlit fuel (strBytes "JSONEncoderError: " ++ e) rest
  | vStrList l =>
      intro fuel rest hf hd
      cases l with
      | nil =>
          have h : valueBytes (GoValue.vStrList []) ++ rest = 91 :: 93 :: rest := rfl
          rw [h]
          rfl
      | cons x xs =>
          have hv : valueBytes (GoValue.vStrList (x :: xs)) =
              0x5b :: (AppendJSONString [] x ++ (strListTail xs ++ [0x5d])) := by
            simp [valueBytes, appendStrList_cons]
          have hx : AppendJSONString [] x = 0x22 :: (esc x ++ [0x22]) := by
            rw [AppendJSONString_esc]
            rfl
          have hflen : (x :: xs).length ≤ fuel := by
            have h1 := AppendJSONString_len x
            have h2 := strListTail_len xs
            rw [hv] at hf
            simp only [List.length_cons, List.cons_append, List.length_append,
              List.length_singleton] at hf ⊢
            omega
          have hv2 : valueBytes (GoValue.vStrList (x :: xs)) ++ rest =
              0x5b :: 0x22 :: (esc x ++ (0x22 :: (strListTail xs ++ (0x5d :: rest)))) := by
            simp [valueBytes, appendStrList_cons, hx, List.append_assoc]
          rw [hv2, parseValue_arr_cons]
          have hloop := parseStrArrayLoop_strs fuel x xs rest hflen
          rw [hx] at hloop
          simp only [List.cons_append, List.append_assoc, List.singleton_append,
            List.nil_append] at hloop
          rw [hloop]
          simp [jsonVal, List.map_map]

theorem tripleChunk_eq (m : (Bytes × Bytes) × Json) :
    tripleChunk m = AppendJSONString [] m.1.1 ++ (0x3a :: (m.1.2 ++ [0x2c])) := by
  simp [tripleChunk, memberChunk, List.append_assoc, List.singleton_append]

/-- The member list of a record body — any number of comma-terminated
members followed by the final message member and the closing brace — parses
back to the corresponding key/value pairs, given enough fuel and that each
member value parses. -/
theorem parseMembers_build :
    ∀ (ms : List ((Bytes × Bytes) × Json)) (fuel : Nat) (mk2 mmsg rest : Bytes),
    (∀ m ∈ ms, ValueParses m.1.2 m.2) →
    ((ms.map tripleChunk).flatten ++ (AppendJSONString [] mk2 ++ (0x3a ::
        (AppendJSONString [] mmsg ++ (0x7d :: rest))))).length ≤ fuel →
    parseMembers fuel ((ms.map tripleChunk).flatten ++ (AppendJSONString [] mk2 ++ (0x3a ::
        (AppendJSONString [] mmsg ++ (0x7d :: rest))))) =
      some (ms.map (fun m => (replaceInvalid m.1.1, m.2)) ++
        [(replaceInvalid mk2, Json.jStr (replaceInvalid mmsg))], rest) := by
  intro ms
  induction ms with
  | nil =>
      intro fuel mk2 mmsg rest _ hf
      simp only [List.map_nil, List.flatten_nil, List.nil_append] at hf ⊢
      cases fuel with
      | zero =>
          exfalso
          have h1 := AppendJSONString_len mk2
          simp only [List.length_append, List.length_cons] at hf
          omega
      | succ f =>
          unfold parseMembers
          rw [parseStringLit_append mk2 (0x3a :: (AppendJSONString [] mmsg ++ (0x7d :: rest)))]
          dsimp only
          rw [parseValue_strlit f mmsg (0x7d :: rest)]
  | cons m ms ih =>
      intro fuel mk2 mmsg rest hv hf
      simp only [List.map_cons, List.flatten_cons, List.append_assoc] at hf ⊢
      rw [tripleChunk_eq] at hf ⊢
      simp only [List.append_assoc, List.cons_append, List.singleton_append,
        List.nil_append] at hf ⊢
      cases fuel with
      | zero =>
          exfalso
          have h1 := AppendJSONString_len m.1.1
          simp only [List.length_append, List.length_cons] at hf
          omega
      | succ f =>
          unfold parseMembers
          rw [parseStringLit_append m.1.1 _]
          dsimp only
          have h1 := AppendJSONString_len m.1.1
          have h2 := AppendJSONString_len mk2
          have h3 := AppendJSONString_len mmsg
          simp only [List.length_append, List.length_cons] at hf
          have hval := hv m (List.mem_cons_self m ms) f
            (0x2c :: ((ms.map tripleChunk).flatten ++ (AppendJSONString [] mk2 ++ (0x3a ::
              (AppendJSONString [] mmsg ++ (0x7d :: rest))))))
            (by simp only [List.length_append, List.length_cons]; omega)
            (by simp only [notDigitHead]; omega)
          rw [hval]
          dsimp only
          rw [ih f mk2 mmsg rest (fun x hx => hv x (List.mem_cons_of_mem m hx))
            (by simp only [List.length_append, List.length_cons]; omega)]
          rfl

theorem parseRecord_cons (fuel : Nat) (w : Bytes) :
    parseRecord fuel (0x7b :: 0x22 :: w) = parseMembers fuel (0x22 :: w) := rfl

theorem valueParses_strlit (s : Bytes) :
    ValueParses (AppendJSONString [] s) (Json.jStr (replaceInvalid s)) :=
  fun fuel rest _ _ => parseValue_strlit fuel s rest

/-- Each optional metadata member's value bytes parse back to its JSON
value, given that the formatted time is escape-free ASCII (Go RFC3339
output always is). -/
theorem recMetaTriples_valueParses (enc : JSONEncoder) (name timeBytes levelStr : Bytes)
    (htb : ∀ b ∈ timeBytes, noEscape b = true) :
    ∀ m ∈ recMetaTriples enc name timeBytes levelStr, ValueParses m.1.2 m.2 := by
  intro m hm
  unfold recMetaTriples at hm
  rcases List.mem_append.1 hm with h | h
  · rcases List.mem_append.1 h with h | h
    · split at h
      · rw [List.mem_singleton.1 h]
        exact parseValue_bytes (GoValue.vDur timeBytes) htb
      · simp at h
    · split at h
      · rw [List.mem_singleton.1 h]
        exact valueParses_strlit levelStr
      · simp at h
  · split at h
    · rw [List.mem_singleton.1 h]
      exact valueParses_strlit name
    · simp at h

/-- `Start` emits the opening brace and the metadata member chunks. -/
theorem Start_eq (enc : JSONEncoder) (buf name timeBytes levelStr : Bytes) :
    enc.Start buf name timeBytes levelStr =
      buf ++ 0x7b :: ((recMetaTriples enc name timeBytes levelStr).map tripleChunk).flatten := by
  unfold JSONEncoder.Start recMetaTriples
  by_cases h1 : 0 < enc.TimeKey.length <;>
    by_cases h2 : 0 < enc.LevelKey.length ∧ enc.hasLevelFormat <;>
      by_cases h3 : 0 < enc.LoggerKey.length ∧ 0 < name.length <;>
        simp [h1, h2, h3, tripleChunk, memberChunk, AppendJSONString_esc, List.append_assoc]

/-- `Encode` folded over well-behaved fields appends one member chunk per
field and never fails. -/
theorem encodeFields_eq (enc : JSONEncoder) :
    ∀ (fields : List (Bytes × GoValue)) (buf : Bytes),
    (∀ f ∈ fields, wellBehaved f.2) →
    encodeFields enc buf fields =
      some (buf ++ (fields.map (fun f => memberChunk f.1 (valueBytes f.2))).flatten) := by
  intro fields
  induction fields with
  | nil =>
      intro buf _
      simp [encodeFields]
  | cons f fs ih =>
      intro buf hw
      simp only [encodeFields, JSONEncoder.Encode]
      rw [appendAny_eq _ _ (hw f (List.mem_cons_self f fs))]
      dsimp only [Option.map]
      rw [ih _ (fun x hx => hw x (List.mem_cons_of_mem f hx))]
      simp [memberChunk, AppendJSONString_esc, List.append_assoc]

/-- `End` appends the message member, the closing brace, and the optional
newline. -/
theorem End_eq (enc : JSONEncoder) (buf msg : Bytes) :
    enc.End buf msg =
      (buf ++ (AppendJSONString [] enc.MsgKey ++ (0x3a ::
        (AppendJSONString [] msg ++ [0x7d])))) ++
        (if enc.Newline then [0x0a] else []) := by
  unfold JSONEncoder.End
  by_cases h : enc.Newline <;> simp [h, AppendJSONString_esc, List.append_assoc]

/-- A record body always begins with a double quote: the first byte of the
first member's key literal (the message member when no other member
exists). -/
theorem body_head_quote (ms : List ((Bytes × Bytes) × Json)) (mk2 mmsg rest : Bytes) :
    ∃ w, (ms.map tripleChunk).flatten ++ (AppendJSONString [] mk2 ++ (0x3a ::
        (AppendJSONString [] mmsg ++ (0x7d :: rest)))) = 0x22 :: w := by
  cases ms with
  | nil =>
      refine ⟨(esc mk2 ++ [0x22]) ++ (0x3a :: (AppendJSONString [] mmsg ++ (0x7d :: rest))), ?_⟩
      simp [AppendJSONString_esc, List.append_assoc]
  | cons m ms2 =>
      refine ⟨(esc m.1.1 ++ [0x22]) ++ ((0x3a :: (m.1.2 ++ [0x2c])) ++
        ((ms2.map tripleChunk).flatten ++ (AppendJSONString [] mk2 ++ (0x3a ::
          (AppendJSONString [] mmsg ++ (0x7d :: rest)))))), ?_⟩
      rw [List.map_cons, List.flatten_cons, tripleChunk_eq]
      simp [AppendJSONString_esc, List.append_assoc]

/-- Full record pipeline: for well-behaved fields, `Start` + `Encode`* +
`End` succeeds and the output parses as a single JSON object whose members
are the metadata, the fields in order, and the message last, followed by
nothing but the optional newline. -/
theorem encodeRecord_parses (enc : JSONEncoder) (name timeBytes levelStr msg : Bytes)
    (fields : List (Bytes × GoValue))
    (htb : ∀ b ∈ timeBytes, noEscape b = true)
    (hw : ∀ f ∈ fields, wellBehaved f.2) :
    ∃ out, encodeRecord enc name timeBytes levelStr fields msg = some out ∧
      parseJsonObject out =
        some ((recMetaTriples enc name timeBytes levelStr).map
              (fun m => (replaceInvalid m.1.1, m.2)) ++
            (fields.map (fun f => (replaceInvalid f.1, jsonVal f.2)) ++
              [(replaceInvalid enc.MsgKey, Json.jStr (replaceInvalid msg))]),
          if enc.Newline then [0x0a] else []) := by
  classical
  set ms : List ((Bytes × Bytes) × Json) :=
    recMetaTriples enc name timeBytes levelStr ++
      fields.map (fun f => ((f.1, valueBytes f.2), jsonVal f.2)) with hms_def
  set rest : Bytes := if enc.Newline then [0x0a] else [] with hrest_def
  set body : Bytes :=
    (ms.map tripleChunk).flatten ++ (AppendJSONString [] enc.MsgKey ++ (0x3a ::
      (AppendJSONString [] msg ++ (0x7d :: rest)))) with hbody_def
  have hmap : (fields.map (fun f => ((f.1, valueBytes f.2), jsonVal f.2))).map tripleChunk =
      fields.map (fun f => memberChunk f.1 (valueBytes f.2)) := by
    simp only [List.map_map]
    rfl
  have hout : encodeRecord enc name timeBytes levelStr fields msg = some (0x7b :: body) := by
    unfold encodeRecord
    rw [Start_eq, encodeFields_eq enc fields _ hw]
    dsimp only [Option.map]
    congr 1
    rw [End_eq, hbody_def, hms_def]
    simp only [List.map_append, List.flatten_append, hmap]
    simp [List.append_assoc]
  have hvp : ∀ m ∈ ms, ValueParses m.1.2 m.2 := by
    intro m hm
    rcases List.mem_append.1 hm with h | h
    · exact recMetaTriples_valueParses enc name timeBytes levelStr htb m h
    · obtain ⟨f, hf, hfe⟩ := List.mem_map.1 h
      rw [← hfe]
      exact parseValue_bytes f.2 (hw f hf)
  obtain ⟨w, hw2⟩ := body_head_quote ms enc.MsgKey msg rest
  have hparse : parseJsonObject (0x7b :: body) =
      some (ms.map (fun m => (replaceInvalid m.1.1, m.2)) ++
        [(replaceInvalid enc.MsgKey, Json.jStr (replaceInvalid msg))], rest) := by
    show parseRecord (0x7b :: body).length (0x7b :: body) = _
    rw [← hbody_def] at hw2
    rw [hw2, parseRecord_cons, ← hw2]
    refine parseMembers_build ms (0x7b :: body).length enc.MsgKey msg rest hvp ?_
    rw [← hbody_def]
    simp only [List.length_cons]
    omega
  refine ⟨0x7b :: body, hout, ?_⟩
  rw [hparse, hms_def]
  simp [List.map_map, List.append_assoc]

/-- C5 (amended): for every configuration of the optional time/level/logger
keys, every message, and every field sequence of well-behaved kinds —
those whose encodings are guaranteed valid JSON: null, booleans, integers,
strings, safe duration strings, non-panicking error/Stringer strings,
failed-marshaler substitution strings, and string slices, but NOT a
successful `MarshalJSON`, whose raw bytes the source appends unvalidated —
`Start` + one `Encode` per field + `End` produces a single syntactically
valid JSON object (it parses under the JSON grammar with nothing left but
the optional newline) whose members are the configured metadata members,
the fields in order, and the message member last — so no comma ever
directly precedes the closing brace. -/
theorem claim_C5_record_framing (enc : JSONEncoder) (name timeBytes levelStr msg : Bytes)
    (fields : List (Bytes × GoValue))
    (htb : ∀ b ∈ timeBytes, noEscape b = true)
    (hw : ∀ f ∈ fields, wellBehaved f.2) :
    ∃ out, encodeRecord enc name timeBytes levelStr fields msg = some out ∧
      parseJsonObject out =
        some ((recMetaTriples enc name timeBytes levelStr).map
              (fun m => (replaceInvalid m.1.1, m.2)) ++
            (fields.map (fun f => (replaceInvalid f.1, jsonVal f.2)) ++
              [(replaceInvalid enc.MsgKey, Json.jStr (replaceInvalid msg))]),
          if enc.Newline then [0x0a] else []) :=
  encodeRecord_parses enc name timeBytes levelStr msg fields htb hw

theorem claim_C5_record_framing_witness :
    (∀ b ∈ strBytes "2026-01-01T00:00:00Z", noEscape b = true) ∧
    ∃ out, encodeRecord (JSONEncoder.mk true (strBytes "t") (strBytes "lvl") true
        (strBytes "logger") (strBytes "msg")) (strBytes "app")
        (strBytes "2026-01-01T00:00:00Z") (strBytes "INFO")
        [(strBytes "k", GoValue.vInt 42)] (strBytes "hello") = some out ∧
      parseJsonObject out =
        some ((recMetaTriples (JSONEncoder.mk true (strBytes "t") (strBytes "lvl") true
              (strBytes "logger") (strBytes "msg")) (strBytes "app")
              (strBytes "2026-01-01T00:00:00Z") (strBytes "INFO")).map
            (fun m => (replaceInvalid m.1.1, m.2)) ++
          ([(strBytes "k", GoValue.vInt 42)].map
              (fun f => (replaceInvalid f.1, jsonVal f.2)) ++
            [(replaceInvalid (strBytes "msg"), Json.jStr (replaceInvalid (strBytes "hello")))]),
          [0x0a]) := by
  refine ⟨by decide, ?_⟩
  exact claim_C5_record_framing _ _ _ _ _ _ (by decide)
    (fun f hf => by rw [List.mem_singleton.1 hf]; trivial)

/-- C9: a failing `MarshalJSON` does not propagate the failure: `appendAny`
substitutes a JSON string carrying the error message prefixed
`JSONEncoderError: `, and a record containing such a field still encodes
successfully as a valid JSON object with that string in the field's
place. -/
theorem claim_C9_marshaler_error (enc : JSONEncoder) (name timeBytes levelStr msg key e : Bytes)
    (htb : ∀ b ∈ timeBytes, noEscape b = true) :
    (∀ buf, appendAny buf (GoValue.vMarshaler (Except.error e)) =
      some (AppendJSONString buf (strBytes "JSONEncoderError: " ++ e))) ∧
    ∃ out, encodeRecord enc name timeBytes levelStr
        [(key, GoValue.vMarshaler (Except.error e))] msg = some out ∧
      parseJsonObject out =
        some ((recMetaTriples enc name timeBytes levelStr).map
              (fun m => (replaceInvalid m.1.1, m.2)) ++
            ([(replaceInvalid key,
                Json.jStr (replaceInvalid (strBytes "JSONEncoderError: " ++ e)))] ++
              [(replaceInvalid enc.MsgKey, Json.jStr (replaceInvalid msg))]),
          if enc.Newline then [0x0a] else []) := by
  refine ⟨fun buf => rfl, ?_⟩
  exact encodeRecord_parses enc name timeBytes levelStr msg
    [(key, GoValue.vMarshaler (Except.error e))] htb
    (fun f hf => by rw [List.mem_singleton.1 hf]; trivial)

theorem claim_C9_marshaler_error_witness :
    (∀ b ∈ ([] : Bytes), noEscape b = true) ∧
    ((∀ buf, appendAny buf (GoValue.vMarshaler (Except.error (strBytes "bad"))) =
      some (AppendJSONString buf (strBytes "JSONEncoderError: " ++ strBytes "bad"))) ∧
    ∃ out, encodeRecord (JSONEncoder.mk false [] [] false [] (strBytes "msg"))
        (strBytes "app") [] (strBytes "INFO")
        [(strBytes "k", GoValue.vMarshaler (Except.error (strBytes "bad")))]
        (strBytes "hi") = some out ∧
      parseJsonObject out =
        some ((recMetaTriples (JSONEncoder.mk false [] [] false [] (strBytes "msg"))
              (strBytes "app") [] (strBytes "INFO")).map
            (fun m => (replaceInvalid m.1.1, m.2)) ++
          ([(replaceInvalid (strBytes "k"),
              Json.jStr (replaceInvalid (strBytes "JSONEncoderError: " ++ strBytes "bad")))] ++
            [(replaceInvalid (strBytes "msg"), Json.jStr (replaceInvalid (strBytes "hi")))]),
          [])) :=
  ⟨by decide, claim_C9_marshaler_error (JSONEncoder.mk false [] [] false [] (strBytes "msg"))
    (strBytes "app") [] (strBytes "INFO") (strBytes "hi") (strBytes "k")
    (strBytes "bad") (by decide)⟩

/-- C5: counterexample to the unrestricted claim.  `json.Marshaler` is a
supported kind of the encoder's type switch, yet when `MarshalJSON`
succeeds its raw bytes are appended unvalidated (src/encoder/json.go lines
365-371): a marshaler returning the non-JSON bytes `@oops` makes the
record pipeline succeed while its output fails to parse as a JSON object,
so the concatenation of Start, Encode and End is not always a
syntactically valid JSON object. -/
theorem claim_C5_record_counterexample :
    (encodeRecord (JSONEncoder.mk false [] [] false [] (strBytes "msg"))
        [] [] [] [(strBytes "k", GoValue.vMarshaler (Except.ok (strBytes "@oops")))]
        (strBytes "hi")).isSome = true ∧
    parseJsonObject ((encodeRecord (JSONEncoder.mk false [] [] false [] (strBytes "msg"))
        [] [] [] [(strBytes "k", GoValue.vMarshaler (Except.ok (strBytes "@oops")))]
        (strBytes "hi")).getD []) = none := by
  exact ⟨rfl, rfl⟩

end GoLog
